import Mathlib

/-!
Verification of the RAWR beam-search word-removal core (`rawr.py`).

This file shallowly embeds the two core functions of the repository,
`remove_one` (beam expander) and `get_rawr` (search controller), and proves
the claimed functional-correctness properties and invariants about them.

Modelling conventions:
* a token sequence (a cupy integer array) is a `List Int`;
* the external classifier is a `Model`: `predict` is the greedy
  (argmax) prediction, a deterministic function of the sequence, and
  `grad` is the per-token saliency vector computed by `get_onehot_grad`
  (gradient-dot-embedding).  Saliency scores are modelled as integers:
  the code only ever compares and sorts them;
* `xp.argsort` and Python's `sorted` are modelled by a deterministic
  stable merge sort; the spec leaves tie order implementation-defined;
* `x[:j] ++ x[j+1:]` is `List.eraseIdx`, faithful even when `j` is out
  of range (both leave the list unchanged);
* the well-formedness assumption the code makes about the model — that
  the saliency vector of a sequence has one score per token — is the
  explicit hypothesis `GradLen M` on theorems that need it.
-/

/-! ## Data model and operations -/

/-- The external classifier: greedy prediction and per-token saliency
(the `get_onehot_grad` output). -/
structure Model where
  predict : List Int → Nat
  grad : List Int → List Int

/-- Well-formedness of the model: one saliency score per token
(`get_onehot_grad` returns one scalar per input token). -/
def GradLen (M : Model) : Prop :=
  ∀ x : List Int, (M.grad x).length = x.length

/-- Model of `xp.argsort v`: the positions of `v` sorted by ascending
value (stable, deterministic). -/
def argsort (v : List Int) : List Nat :=
  (List.range v.length).insertionSort (fun i j => v.getD i 0 ≤ v.getD j 0)

/-- Per-beam candidate positions: `order[i][:max_beam_size]` where
`order[i] = xp.argsort(onehot_grad[i][:-1])` — the `max_beam_size`
lowest-saliency non-terminator positions of the beam. -/
def beamCands (g : List Int) (mbs : Nat) : List Nat :=
  (argsort g.dropLast).take mbs

/-- Candidate pool of one example: `(saliency, (beam, position))` for
every per-beam candidate of every beam of the example's slice
(the `coordinates` list of `remove_one`). -/
def poolCoords (M : Model) (mbs : Nat) (xs : List (List Int)) :
    List (Int × Nat × Nat) :=
  (List.range xs.length).flatMap (fun i =>
    (beamCands (M.grad (xs.getD i [])) mbs).map
      (fun j => ((M.grad (xs.getD i [])).getD j 0, i, j)))

/-- Coordinates kept for expansion: the pool sorted by the key
`-saliency` (Python `sorted(coordinates, key=lambda x: -x[0])`),
truncated to the first `max_beam_size`. -/
def chosenCoords (M : Model) (mbs : Nat) (xs : List (List Int)) :
    List (Int × Nat × Nat) :=
  ((poolCoords M mbs xs).insertionSort (fun a b => b.1 ≤ a.1)).take mbs

/-- Output of expanding one example's beam slice. -/
structure ExOut where
  xs : List (List Int)
  cnt : Nat
  inds : List (List Nat)
  rems : List (List Nat)

/-- Body of `remove_one` for a single example: materialise one child
beam per kept pool coordinate, deleting the token at the coordinate's
position, dropping the corresponding entry of the original-position
index list and appending the removed token's original position to the
removed history. -/
def exampleStep (M : Model) (mbs : Nat) (xs : List (List Int))
    (inds rems : List (List Nat)) : ExOut :=
  let chosen := chosenCoords M mbs xs
  { xs := chosen.map (fun c => (xs.getD c.2.1 []).eraseIdx c.2.2)
    cnt := chosen.length
    inds := chosen.map (fun c => (inds.getD c.2.1 []).eraseIdx c.2.2)
    rems := chosen.map (fun c =>
      rems.getD c.2.1 [] ++ [(inds.getD c.2.1 []).getD c.2.2 0]) }

/-- Output of `remove_one`: the new flat beam lists. -/
structure ROOut where
  xs : List (List Int)
  nbs : List Nat
  inds : List (List Nat)
  rems : List (List Nat)

/-- Flat loop of `remove_one`: walk the per-example beam counts,
expand each example's contiguous slice, and concatenate the children. -/
def removeOneGo (M : Model) (mbs : Nat) :
    List Nat → List (List Int) → List (List Nat) → List (List Nat) → ROOut
  | [], _, _, _ => ⟨[], [], [], []⟩
  | nb :: nbs, xs, inds, rems =>
    let ex := exampleStep M mbs (xs.take nb) (inds.take nb) (rems.take nb)
    let r := removeOneGo M mbs nbs (xs.drop nb) (inds.drop nb) (rems.drop nb)
    ⟨ex.xs ++ r.xs, ex.cnt :: r.nbs, ex.inds ++ r.inds, ex.rems ++ r.rems⟩

/-- Embedding of `remove_one(model, xs, n_beams, indices,
removed_indices, max_beam_size)`. -/
def remove_one (M : Model) (xs : List (List Int)) (n_beams : List Nat)
    (indices removed_indices : List (List Nat)) (max_beam_size : Nat) : ROOut :=
  removeOneGo M max_beam_size n_beams xs indices removed_indices

/-- Output of processing the candidate beams of one example in a round
of `get_rawr`: the surviving beams and the updated best-result state. -/
structure ProcOut where
  xs : List (List Int)
  inds : List (List Nat)
  rems : List (List Nat)
  finLen : Nat
  finXs : List (List Int)
  finRem : List (List Nat)

/-- Per-candidate bookkeeping of `get_rawr`'s round loop, threading one
example's best-length / best-sequences / best-removed state through the
candidate beams in order.  A candidate is skipped when its greedy
prediction differs from the original; otherwise a strictly shorter
candidate replaces the best set, an equal-length not-yet-recorded
candidate is appended, and the candidate survives to the next round
unless only the terminator is left. -/
def procBeams (M : Model) (y0 : Nat) :
    List (List Int) → List (List Nat) → List (List Nat) →
    Nat → List (List Int) → List (List Nat) → ProcOut
  | x :: xs, idx :: inds, rem :: rems, fl, fx, fr =>
    if M.predict x = y0 then
      let st : Nat × List (List Int) × List (List Nat) :=
        if x.length < fl then (x.length, [x], [rem])
        else if x.length = fl ∧ x ∉ fx then (fl, fx ++ [x], fr ++ [rem])
        else (fl, fx, fr)
      let r := procBeams M y0 xs inds rems st.1 st.2.1 st.2.2
      if x.length = 1 then r
      else { r with xs := x :: r.xs, inds := idx :: r.inds, rems := rem :: r.rems }
    else procBeams M y0 xs inds rems fl fx fr
  | _, _, _, fl, fx, fr => ⟨[], [], [], fl, fx, fr⟩

/-- Output of one round's per-example filtering: new beam counts,
surviving flat beam lists, and the per-example best-result state. -/
structure RoundOut where
  nbs : List Nat
  xs : List (List Int)
  inds : List (List Nat)
  rems : List (List Nat)
  finLen : List Nat
  finXs : List (List (List Int))
  finRem : List (List (List Nat))

/-- Per-example loop of `get_rawr`'s round body: slice the flat
candidate lists by the beam counts `remove_one` produced, filter and
record each example's slice, and collect the surviving beams and the
new per-example counts. -/
def roundGo (M : Model) :
    List Nat → List Nat → List (List Int) → List (List Nat) →
    List (List Nat) → List Nat → List (List (List Int)) →
    List (List (List Nat)) → RoundOut
  | nb :: nbs, y0 :: ys, xs, inds, rems, fl :: fls, fx :: fxs, fr :: frs =>
    let p := procBeams M y0 (xs.take nb) (inds.take nb) (rems.take nb) fl fx fr
    let r := roundGo M nbs ys (xs.drop nb) (inds.drop nb) (rems.drop nb) fls fxs frs
    ⟨p.xs.length :: r.nbs, p.xs ++ r.xs, p.inds ++ r.inds, p.rems ++ r.rems,
      p.finLen :: r.finLen, p.finXs :: r.finXs, p.finRem :: r.finRem⟩
  | _, _, _, _, _, _, _, _ => ⟨[], [], [], [], [], [], []⟩

/-- Controller state between rounds of `get_rawr`. -/
structure RState where
  xs : List (List Int)
  n_beams : List Nat
  indices : List (List Nat)
  removed : List (List Nat)
  finLen : List Nat
  finXs : List (List (List Int))
  finRem : List (List (List Nat))

/-- One round of `get_rawr`: expand all beams with `remove_one`, run
the greedy prediction on every candidate, do the per-example filtering
and bookkeeping, and keep the surviving beams. -/
def rawrStep (M : Model) (mbs : Nat) (ys0 : List Nat) (s : RState) : RState :=
  let r := remove_one M s.xs s.n_beams s.indices s.removed mbs
  let o := roundGo M r.nbs ys0 r.xs r.inds r.rems s.finLen s.finXs s.finRem
  { xs := o.xs, n_beams := o.nbs, indices := o.inds, removed := o.rems,
    finLen := o.finLen, finXs := o.finXs, finRem := o.finRem }

/-- Embedding of the `while True` loop of `get_rawr`, with explicit
fuel: run a round; stop when no beam survived
(`len(remained_indices) == 0`). -/
def rawrLoop (M : Model) (mbs : Nat) (ys0 : List Nat) : Nat → RState → RState
  | 0, s => s
  | Nat.succ n, s =>
    let s' := rawrStep M mbs ys0 s
    if s'.xs.isEmpty then s' else rawrLoop M mbs ys0 n s'

/-- Length of the longest sequence in the batch. -/
def maxLen (xs : List (List Int)) : Nat :=
  xs.foldr (fun x m => max x.length m) 0

/-- Initial controller state: one beam per example (the full sequence,
identity index map, nothing removed), and the best results seeded to
the original sequence at its full length. -/
def initState (xs : List (List Int)) : RState :=
  { xs := xs, n_beams := xs.map (fun _ => 1),
    indices := xs.map (fun x => List.range x.length),
    removed := xs.map (fun _ => []),
    finLen := xs.map List.length,
    finXs := xs.map (fun x => [x]),
    finRem := xs.map (fun _ => [[]]) }

/-- Embedding of `get_rawr(model, xs, max_beam_size)`: run the beam
search and return, per example, the tied-minimal prediction-preserving
sequences and their removed-original-position lists.  `maxLen xs`
rounds of fuel always suffice (the loop stabilises within
`maxLen xs - 1` rounds, proved below). -/
def get_rawr (M : Model) (xs : List (List Int)) (max_beam_size : Nat) :
    List (List (List Int)) × List (List (List Nat)) :=
  let ys0 := xs.map M.predict
  let s := rawrLoop M max_beam_size ys0 (maxLen xs) (initState xs)
  (s.finXs, s.finRem)

/-- Invariant tying a live beam (or a recorded result) to its original
example `o`: the index list is a strictly increasing list of in-bounds
original positions whose tokens spell out the beam's sequence, the
removed list is duplicate-free and disjoint from it, together they
cover every original position, and the terminator position is still
present. -/
structure BeamOK (o x : List Int) (idx rem : List Nat) : Prop where
  sorted : idx.Pairwise (· < ·)
  idx_lt : ∀ p ∈ idx, p < o.length
  x_eq : x = idx.map (fun p => o.getD p 0)
  rem_nodup : rem.Nodup
  rem_lt : ∀ p ∈ rem, p < o.length
  disj : ∀ p ∈ idx, p ∉ rem
  cover : ∀ p, p < o.length → p ∈ idx ∨ p ∈ rem
  last : o ≠ [] → idx.getLast? = some (o.length - 1)

/-- Pointwise `BeamOK` over three parallel beam lists of one example. -/
def SliceOK (o : List Int) :
    List (List Int) → List (List Nat) → List (List Nat) → Prop
  | [], [], [] => True
  | x :: xs, idx :: inds, rem :: rems => BeamOK o x idx rem ∧ SliceOK o xs inds rems
  | _, _, _ => False

/-- Invariant on one example's recorded best-result state: the two
result lists run in parallel and are non-empty, the recorded length
never exceeds the original's, the recorded sequences are
duplicate-free, every recorded sequence has the recorded length and
preserves the original's greedy prediction, and every recorded entry
still admits an index mapping tying it to the original. -/
structure FinalsOK (M : Model) (o : List Int) (fl : Nat)
    (fx : List (List Int)) (fr : List (List Nat)) : Prop where
  len_eq : fr.length = fx.length
  nonempty : fx ≠ []
  fl_le : fl ≤ o.length
  nodup : fx.Nodup
  each : ∀ x ∈ fx, x.length = fl ∧ M.predict x = M.predict o
  beam : ∀ k, k < fx.length → ∃ idx, BeamOK o (fx.getD k []) idx (fr.getD k [])

/-- Hypothesis of the failure-to-reduce scenario: every single-token
(non-terminator) removal from the original changes the prediction. -/
def noReduction (M : Model) (o : List Int) : Prop :=
  ∀ j, j + 1 < o.length → M.predict (o.eraseIdx j) ≠ M.predict o

/-- Conditional clause tracking the failure-to-reduce scenario for one
example: if no single-token removal preserves the prediction, the
example's best results are still the seeded original, and its beam
slice is either dead or still the single initial beam. -/
def seedClause (M : Model) (o : List Int) (xs : List (List Int))
    (inds rems : List (List Nat)) (fl : Nat) (fx : List (List Int))
    (fr : List (List Nat)) : Prop :=
  noReduction M o →
    fl = o.length ∧ fx = [o] ∧ fr = [[]] ∧
      (xs = [] ∨ (xs = [o] ∧ inds = [List.range o.length] ∧ rems = [[]]))

/-- Whole-round-state invariant, recursing over the examples: each
example's contiguous slice of the flat beam lists satisfies `SliceOK`,
its best-result state satisfies `FinalsOK`, and the failure-to-reduce
clause holds; shapes of all eight lists stay aligned. -/
def RawrInv (M : Model) :
    List (List Int) → List Nat → List (List Int) → List (List Nat) →
    List (List Nat) → List Nat → List (List (List Int)) →
    List (List (List Nat)) → Prop
  | [], [], xs, inds, rems, [], [], [] => xs = [] ∧ inds = [] ∧ rems = []
  | o :: os, nb :: nbs, xs, inds, rems, fl :: fls, fx :: fxs, fr :: frs =>
      nb ≤ xs.length ∧
      SliceOK o (xs.take nb) (inds.take nb) (rems.take nb) ∧
      FinalsOK M o fl fx fr ∧
      seedClause M o (xs.take nb) (inds.take nb) (rems.take nb) fl fx fr ∧
      RawrInv M os nbs (xs.drop nb) (inds.drop nb) (rems.drop nb) fls fxs frs
  | _, _, _, _, _, _, _, _ => False

/-- The whole-state invariant, phrased on the controller state. -/
def StateInv (M : Model) (origs : List (List Int)) (s : RState) : Prop :=
  RawrInv M origs s.n_beams s.xs s.indices s.removed s.finLen s.finXs s.finRem

/-- Toy classifier for witnesses: predicts 1 iff token 7 is present;
saliency of a token is its own value. -/
def sevenModel : Model :=
  { predict := fun x => if (7 : Int) ∈ x then 1 else 0, grad := fun x => x }

/-- Toy classifier for which every deletion changes the prediction
(it predicts the sequence length). -/
def lengthModel : Model :=
  { predict := fun x => x.length, grad := fun x => x }

/-- Toy constant classifier for the pool-selection counterexample. -/
def constModel : Model :=
  { predict := fun _ => 0, grad := fun x => x }

/-- Round-boundary bookkeeping invariant of the controller state:
`sum(n_beams) == len(xs) == len(indices) == len(removed_indices)`. -/
def StateOK (s : RState) : Prop :=
  s.n_beams.sum = s.xs.length ∧ s.xs.length = s.indices.length ∧
  s.indices.length = s.removed.length

/-- Shape alignment of the controller state with the number of
examples, preserved across rounds. -/
def Aligned (n : Nat) (s : RState) : Prop :=
  s.n_beams.length = n ∧ s.finLen.length = n ∧ s.finXs.length = n ∧
  s.finRem.length = n

/-! ## Properties -/

theorem argsort_perm (v : List Int) : (argsort v).Perm (List.range v.length) :=
  List.perm_insertionSort _ _

theorem mem_argsort {v : List Int} {j : Nat} : j ∈ argsort v ↔ j < v.length := by
  rw [argsort, List.mem_insertionSort, List.mem_range]

theorem argsort_sorted (v : List Int) :
    (argsort v).Pairwise (fun i j => v.getD i 0 ≤ v.getD j 0) := by
  haveI h1 : IsTotal Nat (fun i j => v.getD i 0 ≤ v.getD j 0) :=
    ⟨fun _ _ => le_total _ _⟩
  haveI h2 : IsTrans Nat (fun i j => v.getD i 0 ≤ v.getD j 0) :=
    ⟨fun _ _ _ hab hbc => le_trans hab hbc⟩
  exact List.sorted_insertionSort _ _

theorem beamCands_lt {g : List Int} {mbs j : Nat} (h : j ∈ beamCands g mbs) :
    j + 1 < g.length := by
  have h1 : j ∈ argsort g.dropLast := List.take_subset _ _ h
  have h2 := mem_argsort.mp h1
  rw [List.length_dropLast] at h2
  omega

theorem eraseIdx_map {α β : Type} (f : α → β) :
    ∀ (l : List α) (j : Nat), (l.map f).eraseIdx j = (l.eraseIdx j).map f
  | [], _ => rfl
  | _ :: _, 0 => rfl
  | a :: l, j + 1 => by
    simp only [List.map_cons, List.eraseIdx_cons_succ, List.map_cons,
      eraseIdx_map f l j]

theorem getD_mem_of_lt {l : List Nat} {j : Nat} (h : j < l.length) :
    l.getD j 0 ∈ l := by
  rw [List.getD_eq_getElem _ _ h]
  exact List.getElem_mem h

theorem not_mem_eraseIdx_self :
    ∀ {l : List Nat} {j : Nat}, l.Nodup → j < l.length →
      l.getD j 0 ∉ l.eraseIdx j
  | a :: t, 0, hnd, _ => by
    simpa using (List.nodup_cons.mp hnd).1
  | a :: t, j + 1, hnd, hj => by
    simp only [List.length_cons] at hj
    have hjt : j < t.length := by omega
    have ht := (List.nodup_cons.mp hnd).2
    have hat := (List.nodup_cons.mp hnd).1
    simp only [List.getD_cons_succ, List.eraseIdx_cons_succ, List.mem_cons]
    push_neg
    refine ⟨fun he => hat ?_, not_mem_eraseIdx_self ht hjt⟩
    rw [← he]
    exact getD_mem_of_lt hjt

theorem mem_eraseIdx_or :
    ∀ {l : List Nat} {p : Nat} (j : Nat), p ∈ l →
      p ∈ l.eraseIdx j ∨ p = l.getD j 0
  | a :: t, p, 0, hp => by
    rcases List.mem_cons.mp hp with h | h
    · exact Or.inr (by simpa using h)
    · exact Or.inl (by simpa using h)
  | a :: t, p, j + 1, hp => by
    rcases List.mem_cons.mp hp with h | h
    · exact Or.inl (by simp [List.eraseIdx_cons_succ, h])
    · rcases mem_eraseIdx_or j h with h2 | h2
      · exact Or.inl (by simp [List.eraseIdx_cons_succ, h2])
      · exact Or.inr (by simpa using h2)

theorem getLast?_eraseIdx {l : List Nat} {j : Nat} (h : j + 1 < l.length) :
    (l.eraseIdx j).getLast? = l.getLast? := by
  have hj : j < l.length := by omega
  rw [List.getLast?_eq_getElem?, List.getLast?_eq_getElem?,
    List.getElem?_eraseIdx, List.length_eraseIdx]
  rw [if_pos hj, if_neg (by omega)]
  congr 1
  omega

theorem BeamOK.x_len {o x : List Int} {idx rem : List Nat}
    (h : BeamOK o x idx rem) : x.length = idx.length := by
  rw [h.x_eq, List.length_map]

theorem BeamOK.idx_nodup {o x : List Int} {idx rem : List Nat}
    (h : BeamOK o x idx rem) : idx.Nodup :=
  h.sorted.imp (fun hlt => Nat.ne_of_lt hlt)

theorem BeamOK.idx_rem_length {o x : List Int} {idx rem : List Nat}
    (h : BeamOK o x idx rem) : idx.length + rem.length = o.length := by
  have hnd : (idx ++ rem).Nodup := by
    rw [List.nodup_append]
    exact ⟨h.idx_nodup, h.rem_nodup, h.disj⟩
  have h1 : (idx ++ rem).Subperm (List.range o.length) := by
    refine hnd.subperm ?_
    intro p hp
    rw [List.mem_range]
    rcases List.mem_append.mp hp with hp | hp
    · exact h.idx_lt p hp
    · exact h.rem_lt p hp
  have h2 : (List.range o.length).Subperm (idx ++ rem) := by
    refine (List.nodup_range _).subperm ?_
    intro p hp
    rw [List.mem_range] at hp
    rcases h.cover p hp with hp2 | hp2
    · exact List.mem_append_left _ hp2
    · exact List.mem_append_right _ hp2
  have g1 := h1.length_le
  have g2 := h2.length_le
  simp only [List.length_append, List.length_range] at g1 g2
  omega

theorem map_getD_sublist : ∀ (o : List Int) (idx : List Nat),
    idx.Pairwise (· < ·) → (∀ p ∈ idx, p < o.length) →
    (idx.map (fun p => o.getD p 0)).Sublist o
  | _, [], _, _ => by simp
  | [], p :: rest, _, hb => absurd (hb p (List.mem_cons_self p rest)) (by simp)
  | a :: o2, p :: rest, hs, hb => by
    have hshift : ∀ (l : List Nat), (∀ q ∈ l, 1 ≤ q) →
        l.map (fun q => (a :: o2).getD q 0)
          = (l.map (fun q => q - 1)).map (fun q => o2.getD q 0) := by
      intro l hl
      rw [List.map_map]
      apply List.map_congr_left
      intro q hq
      have h1 := hl q hq
      obtain ⟨q2, rfl⟩ : ∃ q2, q = q2 + 1 := ⟨q - 1, by omega⟩
      simp [List.getD_cons_succ]
    rcases Nat.eq_zero_or_pos p with hp | hp
    · subst hp
      have hrest : ∀ q ∈ rest, 1 ≤ q := by
        intro q hq
        have := (List.pairwise_cons.mp hs).1 q hq
        omega
      simp only [List.map_cons, List.getD_cons_zero]
      rw [hshift rest hrest]
      refine List.Sublist.cons₂ a
        (map_getD_sublist o2 (rest.map (fun q => q - 1)) ?_ ?_)
      · rw [List.pairwise_map]
        refine (List.pairwise_cons.mp hs).2.imp_of_mem ?_
        intro q r hq hr hqr
        have := hrest q hq
        omega
      · intro q hq
        rw [List.mem_map] at hq
        obtain ⟨q2, hq2, rfl⟩ := hq
        have h1 := hrest q2 hq2
        have h2 := hb q2 (List.mem_cons_of_mem _ hq2)
        simp only [List.length_cons] at h2
        omega
    · have hall : ∀ q ∈ p :: rest, 1 ≤ q := by
        intro q hq
        rcases List.mem_cons.mp hq with rfl | hq
        · omega
        · have := (List.pairwise_cons.mp hs).1 q hq
          omega
      rw [hshift (p :: rest) hall]
      refine List.Sublist.cons a
        (map_getD_sublist o2 ((p :: rest).map (fun q => q - 1)) ?_ ?_)
      · rw [List.pairwise_map]
        refine hs.imp_of_mem ?_
        intro q r hq hr hqr
        have := hall q hq
        omega
      · intro q hq
        rw [List.mem_map] at hq
        obtain ⟨q2, hq2, rfl⟩ := hq
        have h1 := hall q2 hq2
        have h2 := hb q2 hq2
        simp only [List.length_cons] at h2
        omega

theorem BeamOK.x_sublist {o x : List Int} {idx rem : List Nat}
    (h : BeamOK o x idx rem) : x.Sublist o := by
  rw [h.x_eq]
  exact map_getD_sublist o idx h.sorted h.idx_lt

theorem BeamOK.x_le {o x : List Int} {idx rem : List Nat}
    (h : BeamOK o x idx rem) : x.length ≤ o.length :=
  h.x_sublist.length_le

/-- Child-beam preservation: deleting position `j` (not the last one)
from the sequence and the index list, and appending the removed
original position, keeps the beam invariant. -/
theorem BeamOK.child {o x : List Int} {idx rem : List Nat}
    (h : BeamOK o x idx rem) {j : Nat} (hj : j + 1 < idx.length) :
    BeamOK o (x.eraseIdx j) (idx.eraseIdx j) (rem ++ [idx.getD j 0]) := by
  have hjlen : j < idx.length := by omega
  have hmem : idx.getD j 0 ∈ idx := getD_mem_of_lt hjlen
  refine ⟨?_, ?_, ?_, ?_, ?_, ?_, ?_, ?_⟩
  · exact List.Pairwise.sublist (List.eraseIdx_sublist idx j) h.sorted
  · intro p hp
    exact h.idx_lt p ((List.eraseIdx_sublist idx j).subset hp)
  · rw [h.x_eq, eraseIdx_map]
  · rw [List.nodup_append]
    refine ⟨h.rem_nodup, List.nodup_singleton _, ?_⟩
    intro p hp hp2
    rw [List.mem_singleton] at hp2
    subst hp2
    exact h.disj _ hmem hp
  · intro p hp
    rcases List.mem_append.mp hp with hp | hp
    · exact h.rem_lt p hp
    · rw [List.mem_singleton] at hp
      subst hp
      exact h.idx_lt _ hmem
  · intro p hp hp2
    have hpidx : p ∈ idx := (List.eraseIdx_sublist idx j).subset hp
    rcases List.mem_append.mp hp2 with hp3 | hp3
    · exact h.disj p hpidx hp3
    · rw [List.mem_singleton] at hp3
      subst hp3
      exact not_mem_eraseIdx_self h.idx_nodup hjlen hp
  · intro p hp
    rcases h.cover p hp with hp2 | hp2
    · rcases mem_eraseIdx_or j hp2 with hp3 | hp3
      · exact Or.inl hp3
      · exact Or.inr (List.mem_append_right _ (by simp [hp3]))
    · exact Or.inr (List.mem_append_left _ hp2)
  · intro ho
    rw [getLast?_eraseIdx hj]
    exact h.last ho

theorem map_getD_range (o : List Int) :
    (List.range o.length).map (fun p => o.getD p 0) = o := by
  apply List.ext_getElem (by simp)
  intro n h1 h2
  simp only [List.getElem_map, List.getElem_range]
  rw [List.getD_eq_getElem _ _ h2]

theorem beamOK_init (o : List Int) : BeamOK o o (List.range o.length) [] := by
  refine ⟨List.pairwise_lt_range _, ?_, (map_getD_range o).symm,
    List.nodup_nil, ?_, ?_, ?_, ?_⟩
  · intro p hp
    exact List.mem_range.mp hp
  · intro p hp
    simp at hp
  · intro p _ hp
    simp at hp
  · intro p hp
    exact Or.inl (List.mem_range.mpr hp)
  · intro ho
    have hlen : 0 < o.length := List.length_pos.mpr ho
    rw [List.getLast?_eq_getElem?, List.length_range,
      List.getElem?_range (by omega)]

theorem sliceOK_nil (o : List Int) : SliceOK o [] [] [] := trivial

theorem sliceOK_lengths {o : List Int} :
    ∀ {xs : List (List Int)} {inds rems : List (List Nat)},
      SliceOK o xs inds rems → inds.length = xs.length ∧ rems.length = xs.length
  | [], [], [], _ => ⟨rfl, rfl⟩
  | [], [], _ :: _, h => absurd h (by simp [SliceOK])
  | [], _ :: _, _, h => absurd h (by simp [SliceOK])
  | _ :: _, [], _, h => absurd h (by simp [SliceOK])
  | _ :: _, _ :: _, [], h => absurd h (by simp [SliceOK])
  | _ :: xs, _ :: inds, _ :: rems, h => by
    have := sliceOK_lengths h.2
    simp only [List.length_cons]
    omega

theorem sliceOK_getD {o : List Int} :
    ∀ {xs : List (List Int)} {inds rems : List (List Nat)} {i : Nat},
      SliceOK o xs inds rems → i < xs.length →
      BeamOK o (xs.getD i []) (inds.getD i []) (rems.getD i [])
  | [], _, _, _, _, hi => absurd hi (by simp)
  | _ :: _, [], _, _, h, _ => absurd h (by simp [SliceOK])
  | _ :: _, _ :: _, [], _, h, _ => absurd h (by simp [SliceOK])
  | x :: xs, idx :: inds, rem :: rems, 0, h, _ => h.1
  | x :: xs, idx :: inds, rem :: rems, i + 1, h, hi => by
    simp only [List.getD_cons_succ]
    exact sliceOK_getD h.2 (by simpa using hi)

theorem sliceOK_maps {o : List Int} {γ : Type}
    (f : γ → List Int) (g h : γ → List Nat) :
    ∀ (l : List γ), (∀ c ∈ l, BeamOK o (f c) (g c) (h c)) →
      SliceOK o (l.map f) (l.map g) (l.map h)
  | [], _ => trivial
  | c :: l, hall => by
    refine ⟨hall c (List.mem_cons_self c l), ?_⟩
    exact sliceOK_maps f g h l (fun c2 hc2 => hall c2 (List.mem_cons_of_mem _ hc2))

theorem sliceOK_cons {o x : List Int} {idx rem : List Nat}
    {xs : List (List Int)} {inds rems : List (List Nat)}
    (h1 : BeamOK o x idx rem) (h2 : SliceOK o xs inds rems) :
    SliceOK o (x :: xs) (idx :: inds) (rem :: rems) := ⟨h1, h2⟩

theorem chosen_subset_pool {M : Model} {mbs : Nat} {xs : List (List Int)}
    {c : Int × Nat × Nat} (h : c ∈ chosenCoords M mbs xs) :
    c ∈ poolCoords M mbs xs :=
  (List.mem_insertionSort _).mp (List.take_subset _ _ h)

theorem pool_elim {M : Model} {mbs : Nat} {xs : List (List Int)}
    {c : Int × Nat × Nat} (h : c ∈ poolCoords M mbs xs) :
    ∃ i j, i < xs.length ∧ j ∈ beamCands (M.grad (xs.getD i [])) mbs ∧
      c = ((M.grad (xs.getD i [])).getD j 0, i, j) := by
  rw [poolCoords, List.mem_flatMap] at h
  obtain ⟨i, hi, hc⟩ := h
  rw [List.mem_map] at hc
  obtain ⟨j, hj, rfl⟩ := hc
  exact ⟨i, j, List.mem_range.mp hi, hj, rfl⟩

theorem getD_mem_of_lt' {α : Type} {l : List α} {j : Nat} {d : α}
    (h : j < l.length) : l.getD j d ∈ l := by
  rw [List.getD_eq_getElem _ _ h]
  exact List.getElem_mem h

theorem exampleStep_sliceOK {M : Model} {mbs : Nat} {o : List Int}
    {xs : List (List Int)} {inds rems : List (List Nat)}
    (hG : GradLen M) (hS : SliceOK o xs inds rems) :
    SliceOK o (exampleStep M mbs xs inds rems).xs
      (exampleStep M mbs xs inds rems).inds
      (exampleStep M mbs xs inds rems).rems := by
  simp only [exampleStep]
  apply sliceOK_maps
  intro c hc
  obtain ⟨i, j, hi, hj, rfl⟩ := pool_elim (chosen_subset_pool hc)
  have hparent := sliceOK_getD hS hi
  have hjlen : j + 1 < (xs.getD i []).length := by
    have h2 := beamCands_lt hj
    rw [hG] at h2
    exact h2
  have hjidx : j + 1 < (inds.getD i []).length := by
    rw [← hparent.x_len]
    exact hjlen
  exact hparent.child hjidx

theorem chosenCoords_nil (M : Model) (mbs : Nat) :
    chosenCoords M mbs [] = [] := by
  simp [chosenCoords, poolCoords]

theorem chosenCoords_short {M : Model} {mbs : Nat} {xs : List (List Int)}
    (hG : GradLen M) (hshort : ∀ x ∈ xs, x.length ≤ 1) :
    chosenCoords M mbs xs = [] := by
  have hpool : poolCoords M mbs xs = [] := by
    rw [poolCoords, List.flatMap_eq_nil_iff]
    intro i hi
    rw [List.mem_range] at hi
    have hx : xs.getD i [] ∈ xs := getD_mem_of_lt' hi
    have h1 : (M.grad (xs.getD i [])).dropLast = [] := by
      rw [← List.length_eq_zero, List.length_dropLast, hG]
      have := hshort _ hx
      omega
    rw [beamCands, h1]
    simp [argsort]
  rw [chosenCoords, hpool]
  simp

theorem exampleStep_empty {M : Model} {mbs : Nat} {xs : List (List Int)}
    {inds rems : List (List Nat)} (h : chosenCoords M mbs xs = []) :
    exampleStep M mbs xs inds rems = ⟨[], 0, [], []⟩ := by
  simp [exampleStep, h]

theorem exampleStep_children_len {M : Model} {mbs : Nat} (hG : GradLen M)
    {xs : List (List Int)} {inds rems : List (List Nat)} :
    ∀ x2 ∈ (exampleStep M mbs xs inds rems).xs,
      ∃ x ∈ xs, x2.length + 1 = x.length := by
  intro x2 hx2
  simp only [exampleStep] at hx2
  rw [List.mem_map] at hx2
  obtain ⟨c, hc, rfl⟩ := hx2
  obtain ⟨i, j, hi, hj, rfl⟩ := pool_elim (chosen_subset_pool hc)
  have hjlen : j + 1 < (xs.getD i []).length := by
    have h2 := beamCands_lt hj
    rw [hG] at h2
    exact h2
  refine ⟨xs.getD i [], getD_mem_of_lt' hi, ?_⟩
  show ((xs.getD i []).eraseIdx j).length + 1 = (xs.getD i []).length
  rw [List.length_eraseIdx, if_pos (by omega)]
  omega

theorem exampleStep_single {M : Model} {mbs : Nat} {o : List Int}
    (hG : GradLen M) :
    ∀ x2 ∈ (exampleStep M mbs [o] [List.range o.length] [[]]).xs,
      ∃ j, j + 1 < o.length ∧ x2 = o.eraseIdx j := by
  intro x2 hx2
  simp only [exampleStep] at hx2
  rw [List.mem_map] at hx2
  obtain ⟨c, hc, rfl⟩ := hx2
  obtain ⟨i, j, hi, hj, rfl⟩ := pool_elim (chosen_subset_pool hc)
  have hi0 : i = 0 := by simpa using hi
  subst hi0
  have hjlen : j + 1 < o.length := by
    have h2 := beamCands_lt hj
    rw [hG] at h2
    simpa using h2
  exact ⟨j, hjlen, rfl⟩

theorem getD_append_lt {α : Type} (l l2 : List α) (d : α) (k : Nat)
    (h : k < l.length) : (l ++ l2).getD k d = l.getD k d := by
  rw [List.getD_eq_getElem?_getD, List.getElem?_append, if_pos h,
    ← List.getD_eq_getElem?_getD]

theorem getD_append_self {α : Type} (l l2 : List α) (d : α) :
    (l ++ l2).getD l.length d = l2.getD 0 d := by
  rw [List.getD_eq_getElem?_getD, List.getElem?_append_right (le_refl _),
    Nat.sub_self, ← List.getD_eq_getElem?_getD]

theorem finals_update {M : Model} {o x : List Int} {idx rem : List Nat}
    {fl : Nat} {fx : List (List Int)} {fr : List (List Nat)}
    (hb : BeamOK o x idx rem) (hpred : M.predict x = M.predict o)
    (hF : FinalsOK M o fl fx fr) :
    FinalsOK M o
      (if x.length < fl then (x.length, [x], [rem])
       else if x.length = fl ∧ x ∉ fx then (fl, fx ++ [x], fr ++ [rem])
       else (fl, fx, fr)).1
      (if x.length < fl then (x.length, [x], [rem])
       else if x.length = fl ∧ x ∉ fx then (fl, fx ++ [x], fr ++ [rem])
       else (fl, fx, fr)).2.1
      (if x.length < fl then (x.length, [x], [rem])
       else if x.length = fl ∧ x ∉ fx then (fl, fx ++ [x], fr ++ [rem])
       else (fl, fx, fr)).2.2 := by
  split
  · refine ⟨rfl, by simp, hb.x_le, List.nodup_singleton _, ?_, ?_⟩
    · intro x2 hx2
      rw [List.mem_singleton] at hx2
      subst hx2
      exact ⟨rfl, hpred⟩
    · intro k hk
      have hk0 : k = 0 := by simpa using hk
      subst hk0
      exact ⟨idx, hb⟩
  · split
    · rename_i hcond
      obtain ⟨heq, hnot⟩ := hcond
      refine ⟨by simp [hF.len_eq], by simp, hF.fl_le, ?_, ?_, ?_⟩
      · rw [List.nodup_append]
        refine ⟨hF.nodup, List.nodup_singleton _, ?_⟩
        intro a ha ha2
        rw [List.mem_singleton] at ha2
        subst ha2
        exact hnot ha
      · intro x2 hx2
        rcases List.mem_append.mp hx2 with h2 | h2
        · exact hF.each x2 h2
        · rw [List.mem_singleton] at h2
          subst h2
          exact ⟨heq, hpred⟩
      · intro k hk
        have hfr0 : fr.length = fx.length := hF.len_eq
        simp only [List.length_append, List.length_singleton] at hk
        rcases Nat.lt_or_ge k fx.length with hk2 | hk2
        · obtain ⟨idx2, hidx2⟩ := hF.beam k hk2
          refine ⟨idx2, ?_⟩
          rw [getD_append_lt _ _ _ _ hk2,
            getD_append_lt _ _ _ _ (by omega : k < fr.length)]
          exact hidx2
        · have hk3 : k = fx.length := by omega
          subst hk3
          refine ⟨idx, ?_⟩
          rw [getD_append_self]
          have hfr : fx.length = fr.length := hF.len_eq.symm
          rw [hfr, getD_append_self]
          simpa using hb
    · exact hF

theorem procBeams_ok {M : Model} {o : List Int} :
    ∀ (xs : List (List Int)) (inds rems : List (List Nat)) (fl : Nat)
      (fx : List (List Int)) (fr : List (List Nat)),
      SliceOK o xs inds rems → FinalsOK M o fl fx fr →
      SliceOK o (procBeams M (M.predict o) xs inds rems fl fx fr).xs
        (procBeams M (M.predict o) xs inds rems fl fx fr).inds
        (procBeams M (M.predict o) xs inds rems fl fx fr).rems ∧
      FinalsOK M o (procBeams M (M.predict o) xs inds rems fl fx fr).finLen
        (procBeams M (M.predict o) xs inds rems fl fx fr).finXs
        (procBeams M (M.predict o) xs inds rems fl fx fr).finRem
  | [], [], [], fl, fx, fr, _, hF => ⟨sliceOK_nil o, hF⟩
  | [], [], _ :: _, _, _, _, hS, _ => absurd hS (by simp [SliceOK])
  | [], _ :: _, _, _, _, _, hS, _ => absurd hS (by simp [SliceOK])
  | _ :: _, [], _, _, _, _, hS, _ => absurd hS (by simp [SliceOK])
  | _ :: _, _ :: _, [], _, _, _, hS, _ => absurd hS (by simp [SliceOK])
  | x :: xs, idx :: inds, rem :: rems, fl, fx, fr, hS, hF => by
    obtain ⟨hb, hS2⟩ := hS
    by_cases hpred : M.predict x = M.predict o
    · have hFup := finals_update hb hpred hF
      have hrec := procBeams_ok xs inds rems _ _ _ hS2 hFup
      by_cases hlen : x.length = 1
      · simp only [procBeams, if_pos hpred, if_pos hlen]
        exact hrec
      · simp only [procBeams, if_pos hpred, if_neg hlen]
        exact ⟨sliceOK_cons hb hrec.1, hrec.2⟩
    · simp only [procBeams, if_neg hpred]
      exact procBeams_ok xs inds rems fl fx fr hS2 hF

theorem procBeams_allfail {M : Model} {y0 : Nat} :
    ∀ (xs : List (List Int)) (inds rems : List (List Nat)) (fl : Nat)
      (fx : List (List Int)) (fr : List (List Nat)),
      (∀ x ∈ xs, ¬ M.predict x = y0) →
      procBeams M y0 xs inds rems fl fx fr = ⟨[], [], [], fl, fx, fr⟩
  | [], [], [], _, _, _, _ => rfl
  | [], [], _ :: _, _, _, _, _ => rfl
  | [], _ :: _, _, _, _, _, _ => rfl
  | _ :: _, [], _, _, _, _, _ => rfl
  | _ :: _, _ :: _, [], _, _, _, _ => rfl
  | x :: xs, idx :: inds, rem :: rems, fl, fx, fr, hfail => by
    have hx := hfail x (List.mem_cons_self x xs)
    simp only [procBeams, if_neg hx]
    exact procBeams_allfail xs inds rems fl fx fr
      (fun x2 hx2 => hfail x2 (List.mem_cons_of_mem _ hx2))

theorem procBeams_xs_subset {M : Model} {y0 : Nat} :
    ∀ (xs : List (List Int)) (inds rems : List (List Nat)) (fl : Nat)
      (fx : List (List Int)) (fr : List (List Nat)),
      ∀ x2 ∈ (procBeams M y0 xs inds rems fl fx fr).xs, x2 ∈ xs
  | [], [], [], _, _, _ => by intro x2 hx2; exact absurd hx2 (by simp [procBeams])
  | [], [], _ :: _, _, _, _ => by intro x2 hx2; exact absurd hx2 (by simp [procBeams])
  | [], _ :: _, _, _, _, _ => by intro x2 hx2; exact absurd hx2 (by simp [procBeams])
  | _ :: _, [], _, _, _, _ => by intro x2 hx2; exact absurd hx2 (by simp [procBeams])
  | _ :: _, _ :: _, [], _, _, _ => by intro x2 hx2; exact absurd hx2 (by simp [procBeams])
  | x :: xs, idx :: inds, rem :: rems, fl, fx, fr => by
    intro x2 hx2
    by_cases hpred : M.predict x = y0
    · simp only [procBeams, if_pos hpred] at hx2
      by_cases hlen : x.length = 1
      · rw [if_pos hlen] at hx2
        exact List.mem_cons_of_mem _ (procBeams_xs_subset xs inds rems _ _ _ x2 hx2)
      · rw [if_neg hlen] at hx2
        rcases List.mem_cons.mp hx2 with h2 | h2
        · exact h2 ▸ List.mem_cons_self x xs
        · exact List.mem_cons_of_mem _ (procBeams_xs_subset xs inds rems _ _ _ x2 h2)
    · simp only [procBeams, if_neg hpred] at hx2
      exact List.mem_cons_of_mem _ (procBeams_xs_subset xs inds rems fl fx fr x2 hx2)

theorem take_append_len {α : Type} (l l2 : List α) (n : Nat)
    (h : l.length = n) : (l ++ l2).take n = l := by
  subst h
  exact List.take_left l l2

theorem drop_append_len {α : Type} (l l2 : List α) (n : Nat)
    (h : l.length = n) : (l ++ l2).drop n = l2 := by
  subst h
  exact List.drop_left l l2

theorem exampleStep_xs_len (M : Model) (mbs : Nat) (xs : List (List Int))
    (inds rems : List (List Nat)) :
    (exampleStep M mbs xs inds rems).xs.length
      = (exampleStep M mbs xs inds rems).cnt := by
  simp [exampleStep]

theorem exampleStep_inds_len (M : Model) (mbs : Nat) (xs : List (List Int))
    (inds rems : List (List Nat)) :
    (exampleStep M mbs xs inds rems).inds.length
      = (exampleStep M mbs xs inds rems).cnt := by
  simp [exampleStep]

theorem exampleStep_rems_len (M : Model) (mbs : Nat) (xs : List (List Int))
    (inds rems : List (List Nat)) :
    (exampleStep M mbs xs inds rems).rems.length
      = (exampleStep M mbs xs inds rems).cnt := by
  simp [exampleStep]

theorem seedClause_step {M : Model} {mbs : Nat} {o : List Int}
    (hG : GradLen M) {xs : List (List Int)} {inds rems : List (List Nat)}
    {fl : Nat} {fx : List (List Int)} {fr : List (List Nat)}
    (hsc : seedClause M o xs inds rems fl fx fr) :
    seedClause M o
      (procBeams M (M.predict o) (exampleStep M mbs xs inds rems).xs
        (exampleStep M mbs xs inds rems).inds
        (exampleStep M mbs xs inds rems).rems fl fx fr).xs
      (procBeams M (M.predict o) (exampleStep M mbs xs inds rems).xs
        (exampleStep M mbs xs inds rems).inds
        (exampleStep M mbs xs inds rems).rems fl fx fr).inds
      (procBeams M (M.predict o) (exampleStep M mbs xs inds rems).xs
        (exampleStep M mbs xs inds rems).inds
        (exampleStep M mbs xs inds rems).rems fl fx fr).rems
      (procBeams M (M.predict o) (exampleStep M mbs xs inds rems).xs
        (exampleStep M mbs xs inds rems).inds
        (exampleStep M mbs xs inds rems).rems fl fx fr).finLen
      (procBeams M (M.predict o) (exampleStep M mbs xs inds rems).xs
        (exampleStep M mbs xs inds rems).inds
        (exampleStep M mbs xs inds rems).rems fl fx fr).finXs
      (procBeams M (M.predict o) (exampleStep M mbs xs inds rems).xs
        (exampleStep M mbs xs inds rems).inds
        (exampleStep M mbs xs inds rems).rems fl fx fr).finRem := by
  intro H
  obtain ⟨hfl, hfx, hfr, hslice⟩ := hsc H
  rcases hslice with hnil | ⟨hxs, hinds, hrems⟩
  · subst hnil
    rw [exampleStep_empty (chosenCoords_nil M mbs)]
    exact ⟨hfl, hfx, hfr, Or.inl rfl⟩
  · subst hxs
    subst hinds
    subst hrems
    have hall : ∀ x2 ∈ (exampleStep M mbs [o] [List.range o.length] [[]]).xs,
        ¬ M.predict x2 = M.predict o := by
      intro x2 hx2
      obtain ⟨j, hj, rfl⟩ := exampleStep_single hG x2 hx2
      exact H j hj
    rw [procBeams_allfail _ _ _ _ _ _ hall]
    exact ⟨hfl, hfx, hfr, Or.inl rfl⟩

theorem removeOneGo_cons (M : Model) (mbs nb : Nat) (nbs : List Nat)
    (xs : List (List Int)) (inds rems : List (List Nat)) :
    removeOneGo M mbs (nb :: nbs) xs inds rems =
      ⟨(exampleStep M mbs (xs.take nb) (inds.take nb) (rems.take nb)).xs ++
         (removeOneGo M mbs nbs (xs.drop nb) (inds.drop nb) (rems.drop nb)).xs,
       (exampleStep M mbs (xs.take nb) (inds.take nb) (rems.take nb)).cnt ::
         (removeOneGo M mbs nbs (xs.drop nb) (inds.drop nb) (rems.drop nb)).nbs,
       (exampleStep M mbs (xs.take nb) (inds.take nb) (rems.take nb)).inds ++
         (removeOneGo M mbs nbs (xs.drop nb) (inds.drop nb) (rems.drop nb)).inds,
       (exampleStep M mbs (xs.take nb) (inds.take nb) (rems.take nb)).rems ++
         (removeOneGo M mbs nbs (xs.drop nb) (inds.drop nb) (rems.drop nb)).rems⟩ :=
  rfl

theorem roundGo_cons (M : Model) (nb : Nat) (nbs : List Nat) (y0 : Nat)
    (ys : List Nat) (xs : List (List Int)) (inds rems : List (List Nat))
    (fl : Nat) (fls : List Nat) (fx : List (List Int))
    (fxs : List (List (List Int))) (fr : List (List Nat))
    (frs : List (List (List Nat))) :
    roundGo M (nb :: nbs) (y0 :: ys) xs inds rems (fl :: fls) (fx :: fxs)
        (fr :: frs) =
      ⟨(procBeams M y0 (xs.take nb) (inds.take nb) (rems.take nb) fl fx fr).xs.length ::
         (roundGo M nbs ys (xs.drop nb) (inds.drop nb) (rems.drop nb) fls fxs frs).nbs,
       (procBeams M y0 (xs.take nb) (inds.take nb) (rems.take nb) fl fx fr).xs ++
         (roundGo M nbs ys (xs.drop nb) (inds.drop nb) (rems.drop nb) fls fxs frs).xs,
       (procBeams M y0 (xs.take nb) (inds.take nb) (rems.take nb) fl fx fr).inds ++
         (roundGo M nbs ys (xs.drop nb) (inds.drop nb) (rems.drop nb) fls fxs frs).inds,
       (procBeams M y0 (xs.take nb) (inds.take nb) (rems.take nb) fl fx fr).rems ++
         (roundGo M nbs ys (xs.drop nb) (inds.drop nb) (rems.drop nb) fls fxs frs).rems,
       (procBeams M y0 (xs.take nb) (inds.take nb) (rems.take nb) fl fx fr).finLen ::
         (roundGo M nbs ys (xs.drop nb) (inds.drop nb) (rems.drop nb) fls fxs frs).finLen,
       (procBeams M y0 (xs.take nb) (inds.take nb) (rems.take nb) fl fx fr).finXs ::
         (roundGo M nbs ys (xs.drop nb) (inds.drop nb) (rems.drop nb) fls fxs frs).finXs,
       (procBeams M y0 (xs.take nb) (inds.take nb) (rems.take nb) fl fx fr).finRem ::
         (roundGo M nbs ys (xs.drop nb) (inds.drop nb) (rems.drop nb) fls fxs frs).finRem⟩ :=
  rfl

theorem rawrInv_step (M : Model) (mbs : Nat) (hG : GradLen M) :
    ∀ (origs : List (List Int)) (nbs : List Nat) (xs : List (List Int))
      (inds rems : List (List Nat)) (fls : List Nat)
      (fxs : List (List (List Int))) (frs : List (List (List Nat))),
      RawrInv M origs nbs xs inds rems fls fxs frs →
      RawrInv M origs
        (roundGo M (removeOneGo M mbs nbs xs inds rems).nbs (origs.map M.predict)
          (removeOneGo M mbs nbs xs inds rems).xs
          (removeOneGo M mbs nbs xs inds rems).inds
          (removeOneGo M mbs nbs xs inds rems).rems fls fxs frs).nbs
        (roundGo M (removeOneGo M mbs nbs xs inds rems).nbs (origs.map M.predict)
          (removeOneGo M mbs nbs xs inds rems).xs
          (removeOneGo M mbs nbs xs inds rems).inds
          (removeOneGo M mbs nbs xs inds rems).rems fls fxs frs).xs
        (roundGo M (removeOneGo M mbs nbs xs inds rems).nbs (origs.map M.predict)
          (removeOneGo M mbs nbs xs inds rems).xs
          (removeOneGo M mbs nbs xs inds rems).inds
          (removeOneGo M mbs nbs xs inds rems).rems fls fxs frs).inds
        (roundGo M (removeOneGo M mbs nbs xs inds rems).nbs (origs.map M.predict)
          (removeOneGo M mbs nbs xs inds rems).xs
          (removeOneGo M mbs nbs xs inds rems).inds
          (removeOneGo M mbs nbs xs inds rems).rems fls fxs frs).rems
        (roundGo M (removeOneGo M mbs nbs xs inds rems).nbs (origs.map M.predict)
          (removeOneGo M mbs nbs xs inds rems).xs
          (removeOneGo M mbs nbs xs inds rems).inds
          (removeOneGo M mbs nbs xs inds rems).rems fls fxs frs).finLen
        (roundGo M (removeOneGo M mbs nbs xs inds rems).nbs (origs.map M.predict)
          (removeOneGo M mbs nbs xs inds rems).xs
          (removeOneGo M mbs nbs xs inds rems).inds
          (removeOneGo M mbs nbs xs inds rems).rems fls fxs frs).finXs
        (roundGo M (removeOneGo M mbs nbs xs inds rems).nbs (origs.map M.predict)
          (removeOneGo M mbs nbs xs inds rems).xs
          (removeOneGo M mbs nbs xs inds rems).inds
          (removeOneGo M mbs nbs xs inds rems).rems fls fxs frs).finRem := by
  intro origs
  induction origs with
  | nil =>
    intro nbs xs inds rems fls fxs frs h
    cases nbs with
    | cons nb nbs => exact h.elim
    | nil =>
      cases fls with
      | cons fl fls => exact h.elim
      | nil =>
        cases fxs with
        | cons fx fxs => exact h.elim
        | nil =>
          cases frs with
          | cons fr frs => exact h.elim
          | nil =>
            obtain ⟨h1, h2, h3⟩ := h
            subst h1
            subst h2
            subst h3
            exact ⟨rfl, rfl, rfl⟩
  | cons o os ih =>
    intro nbs xs inds rems fls fxs frs h
    cases nbs with
    | nil => exact h.elim
    | cons nb nbs =>
      cases fls with
      | nil => exact h.elim
      | cons fl fls =>
        cases fxs with
        | nil => exact h.elim
        | cons fx fxs =>
          cases frs with
          | nil => exact h.elim
          | cons fr frs =>
            obtain ⟨hnb, hS, hF, hsc, htail⟩ := h
            have hchild := @exampleStep_sliceOK M mbs o (xs.take nb) (inds.take nb) (rems.take nb) hG hS
            have hpok := procBeams_ok
              (exampleStep M mbs (xs.take nb) (inds.take nb) (rems.take nb)).xs
              (exampleStep M mbs (xs.take nb) (inds.take nb) (rems.take nb)).inds
              (exampleStep M mbs (xs.take nb) (inds.take nb) (rems.take nb)).rems
              fl fx fr hchild hF
            have hscstep := @seedClause_step M mbs o hG (xs.take nb) (inds.take nb) (rems.take nb) fl fx fr hsc
            have hrec := ih nbs (xs.drop nb) (inds.drop nb) (rems.drop nb)
              fls fxs frs htail
            rw [removeOneGo_cons, List.map_cons]
            rw [roundGo_cons]
            rw [take_append_len _ _ _
                (exampleStep_xs_len M mbs (xs.take nb) (inds.take nb) (rems.take nb)),
              take_append_len _ _ _
                (exampleStep_inds_len M mbs (xs.take nb) (inds.take nb) (rems.take nb)),
              take_append_len _ _ _
                (exampleStep_rems_len M mbs (xs.take nb) (inds.take nb) (rems.take nb)),
              drop_append_len _ _ _
                (exampleStep_xs_len M mbs (xs.take nb) (inds.take nb) (rems.take nb)),
              drop_append_len _ _ _
                (exampleStep_inds_len M mbs (xs.take nb) (inds.take nb) (rems.take nb)),
              drop_append_len _ _ _
                (exampleStep_rems_len M mbs (xs.take nb) (inds.take nb) (rems.take nb))]
            obtain ⟨hil, hrl⟩ := sliceOK_lengths hpok.1
            refine ⟨by simp, ?_, ?_, ?_, ?_⟩
            · rw [List.take_left, take_append_len _ _ _ hil,
                take_append_len _ _ _ hrl]
              exact hpok.1
            · exact hpok.2
            · rw [List.take_left, take_append_len _ _ _ hil,
                take_append_len _ _ _ hrl]
              exact hscstep
            · rw [List.drop_left, drop_append_len _ _ _ hil,
                drop_append_len _ _ _ hrl]
              exact hrec

theorem rawrInv_init (M : Model) : ∀ (origs : List (List Int)),
    RawrInv M origs (origs.map fun _ => 1) origs
      (origs.map fun x => List.range x.length) (origs.map fun _ => [])
      (origs.map List.length) (origs.map fun x => [x]) (origs.map fun _ => [[]])
  | [] => ⟨rfl, rfl, rfl⟩
  | o :: os => by
    refine ⟨by simp, ?_, ?_, ?_, ?_⟩
    · simp only [List.map_cons, List.take_succ_cons, List.take_zero]
      exact ⟨beamOK_init o, trivial⟩
    · refine ⟨rfl, by simp, le_refl _, List.nodup_singleton _, ?_, ?_⟩
      · intro x hx
        rw [List.mem_singleton] at hx
        subst hx
        exact ⟨rfl, rfl⟩
      · intro k hk
        have hk0 : k = 0 := by simpa using hk
        subst hk0
        exact ⟨List.range o.length, beamOK_init o⟩
    · intro _
      exact ⟨rfl, rfl, rfl, Or.inr ⟨rfl, rfl, rfl⟩⟩
    · simp only [List.map_cons, List.drop_succ_cons, List.drop_zero]
      exact rawrInv_init M os

theorem stateInv_init (M : Model) (xs : List (List Int)) :
    StateInv M xs (initState xs) :=
  rawrInv_init M xs

theorem stateInv_step (M : Model) (mbs : Nat) (origs : List (List Int))
    (hG : GradLen M) (s : RState) (h : StateInv M origs s) :
    StateInv M origs (rawrStep M mbs (origs.map M.predict) s) :=
  rawrInv_step M mbs hG origs s.n_beams s.xs s.indices s.removed
    s.finLen s.finXs s.finRem h

theorem stateInv_loop (M : Model) (mbs : Nat) (origs : List (List Int))
    (hG : GradLen M) :
    ∀ (fuel : Nat) (s : RState), StateInv M origs s →
      StateInv M origs (rawrLoop M mbs (origs.map M.predict) fuel s)
  | 0, _, h => h
  | fuel + 1, s, h => by
    simp only [rawrLoop]
    split
    · exact stateInv_step M mbs origs hG s h
    · exact stateInv_loop M mbs origs hG fuel _ (stateInv_step M mbs origs hG s h)

theorem rawrInv_finals {M : Model} :
    ∀ (origs : List (List Int)) (nbs : List Nat) (xs : List (List Int))
      (inds rems : List (List Nat)) (fls : List Nat)
      (fxs : List (List (List Int))) (frs : List (List (List Nat))),
      RawrInv M origs nbs xs inds rems fls fxs frs →
      ∀ e, e < origs.length →
        FinalsOK M (origs.getD e []) (fls.getD e 0) (fxs.getD e [])
          (frs.getD e []) ∧
        (noReduction M (origs.getD e []) →
          fxs.getD e [] = [origs.getD e []] ∧ frs.getD e [] = [[]]) := by
  intro origs
  induction origs with
  | nil =>
    intro nbs xs inds rems fls fxs frs _ e he
    exact absurd he (by simp)
  | cons o os ih =>
    intro nbs xs inds rems fls fxs frs h e he
    cases nbs with
    | nil => exact h.elim
    | cons nb nbs =>
      cases fls with
      | nil => exact h.elim
      | cons fl fls =>
        cases fxs with
        | nil => exact h.elim
        | cons fx fxs =>
          cases frs with
          | nil => exact h.elim
          | cons fr frs =>
            obtain ⟨hnb, hS, hF, hsc, htail⟩ := h
            cases e with
            | zero =>
              refine ⟨hF, ?_⟩
              intro H
              obtain ⟨_, hfx, hfr, _⟩ := hsc H
              exact ⟨hfx, hfr⟩
            | succ e =>
              have he2 : e < os.length := by simpa using he
              simpa using ih nbs (xs.drop nb) (inds.drop nb) (rems.drop nb)
                fls fxs frs htail e he2

theorem get_rawr_finalsOK (M : Model) (xs : List (List Int)) (mbs : Nat)
    (hG : GradLen M) (e : Nat) (he : e < xs.length) :
    FinalsOK M (xs.getD e [])
      ((rawrLoop M mbs (xs.map M.predict) (maxLen xs) (initState xs)).finLen.getD e 0)
      ((get_rawr M xs mbs).1.getD e []) ((get_rawr M xs mbs).2.getD e []) ∧
    (noReduction M (xs.getD e []) →
      (get_rawr M xs mbs).1.getD e [] = [xs.getD e []] ∧
      (get_rawr M xs mbs).2.getD e [] = [[]]) := by
  have hloop := stateInv_loop M mbs xs hG (maxLen xs) (initState xs)
    (stateInv_init M xs)
  exact rawrInv_finals xs _ _ _ _ _ _ _ hloop e he

/-- Claim C1: every sequence that `get_rawr` records in an example's
final result set yields, under the model's greedy predict, exactly the
original full sequence's greedy prediction; a candidate whose
prediction diverges is never recorded. -/
theorem rawr_prediction_preservation (M : Model) (xs : List (List Int))
    (mbs : Nat) (hG : GradLen M) (e : Nat) (he : e < xs.length) :
    ∀ x ∈ (get_rawr M xs mbs).1.getD e [],
      M.predict x = M.predict (xs.getD e []) := by
  intro x hx
  exact ((get_rawr_finalsOK M xs mbs hG e he).1.each x hx).2

/-- Witness for C1 on a concrete model and batch. -/
theorem rawr_prediction_preservation_witness :
    sevenModel.predict [7, 9]
      = sevenModel.predict (([[5, 7, 9]] : List (List Int)).getD 0 []) :=
  rawr_prediction_preservation sevenModel [[5, 7, 9]] 2 (fun _ => rfl) 0
    (by decide) [7, 9] (by decide)

/-- Claim C3: all sequences recorded in an example's final result set
have equal length; no recorded reduction is strictly shorter than
another recorded reduction of the same example. -/
theorem rawr_equal_recorded_lengths (M : Model) (xs : List (List Int))
    (mbs : Nat) (hG : GradLen M) (e : Nat) (he : e < xs.length) :
    ∀ x1 ∈ (get_rawr M xs mbs).1.getD e [],
      ∀ x2 ∈ (get_rawr M xs mbs).1.getD e [], x1.length = x2.length := by
  intro x1 h1 x2 h2
  have hF := (get_rawr_finalsOK M xs mbs hG e he).1
  rw [(hF.each x1 h1).1, (hF.each x2 h2).1]

/-- Witness for C3 on a concrete model and batch. -/
theorem rawr_equal_recorded_lengths_witness :
    ([7, 9] : List Int).length = ([7, 9] : List Int).length :=
  rawr_equal_recorded_lengths sevenModel [[5, 7, 9]] 2 (fun _ => rfl) 0
    (by decide) [7, 9] (by decide) [7, 9] (by decide)

/-- Claim C4: no two sequences recorded in an example's final result
set are identical token-for-token. -/
theorem rawr_results_nodup (M : Model) (xs : List (List Int)) (mbs : Nat)
    (hG : GradLen M) (e : Nat) (he : e < xs.length) :
    ((get_rawr M xs mbs).1.getD e []).Nodup :=
  (get_rawr_finalsOK M xs mbs hG e he).1.nodup

/-- Witness for C4 on a concrete model and batch. -/
theorem rawr_results_nodup_witness :
    ((get_rawr sevenModel [[5, 7, 9]] 2).1.getD 0 []).Nodup :=
  rawr_results_nodup sevenModel [[5, 7, 9]] 2 (fun _ => rfl) 0 (by decide)

/-- Claim C10: for every example the two returned lists are parallel
and non-empty, and each removed-index list accounts exactly for the
deleted positions: its length is the original length minus the
recorded sequence's length. -/
theorem rawr_parallel_results (M : Model) (xs : List (List Int)) (mbs : Nat)
    (hG : GradLen M) (e : Nat) (he : e < xs.length) :
    ((get_rawr M xs mbs).2.getD e []).length
        = ((get_rawr M xs mbs).1.getD e []).length ∧
    0 < ((get_rawr M xs mbs).1.getD e []).length ∧
    ∀ k, k < ((get_rawr M xs mbs).1.getD e []).length →
      (((get_rawr M xs mbs).2.getD e []).getD k []).length =
        (xs.getD e []).length
          - (((get_rawr M xs mbs).1.getD e []).getD k []).length := by
  have hF := (get_rawr_finalsOK M xs mbs hG e he).1
  refine ⟨hF.len_eq, List.length_pos.mpr hF.nonempty, ?_⟩
  intro k hk
  obtain ⟨idx, hb⟩ := hF.beam k hk
  have h1 := hb.idx_rem_length
  have h2 := hb.x_len
  omega

/-- Witness for C10 on a concrete model and batch. -/
theorem rawr_parallel_results_witness :
    ((get_rawr sevenModel [[5, 7, 9]] 2).2.getD 0 []).length
        = ((get_rawr sevenModel [[5, 7, 9]] 2).1.getD 0 []).length ∧
    0 < ((get_rawr sevenModel [[5, 7, 9]] 2).1.getD 0 []).length ∧
    ∀ k, k < ((get_rawr sevenModel [[5, 7, 9]] 2).1.getD 0 []).length →
      (((get_rawr sevenModel [[5, 7, 9]] 2).2.getD 0 []).getD k []).length =
        ([[5, 7, 9]].getD 0 []).length
          - (((get_rawr sevenModel [[5, 7, 9]] 2).1.getD 0 []).getD k []).length :=
  rawr_parallel_results sevenModel [[5, 7, 9]] 2 (fun _ => rfl) 0 (by decide)

/-- Claim C6: for every recorded reduction, the removed original
positions together with the original positions of the remaining tokens
(via the per-beam index mapping) exactly partition the original
position set: disjoint, and their union is all of
`{0, …, L_0 - 1}`. -/
theorem rawr_index_partition (M : Model) (xs : List (List Int)) (mbs : Nat)
    (hG : GradLen M) (e : Nat) (he : e < xs.length) (k : Nat)
    (hk : k < ((get_rawr M xs mbs).1.getD e []).length) :
    ∃ idx : List Nat,
      ((get_rawr M xs mbs).1.getD e []).getD k []
          = idx.map (fun p => (xs.getD e []).getD p 0) ∧
      idx.Pairwise (· < ·) ∧
      (∀ p, (p ∈ idx ∨ p ∈ ((get_rawr M xs mbs).2.getD e []).getD k []) ↔
        p < (xs.getD e []).length) ∧
      (∀ p ∈ idx, p ∉ ((get_rawr M xs mbs).2.getD e []).getD k []) := by
  have hF := (get_rawr_finalsOK M xs mbs hG e he).1
  obtain ⟨idx, hb⟩ := hF.beam k hk
  refine ⟨idx, hb.x_eq, hb.sorted, ?_, hb.disj⟩
  intro p
  constructor
  · rintro (hp | hp)
    · exact hb.idx_lt p hp
    · exact hb.rem_lt p hp
  · exact hb.cover p

/-- Witness for C6 on a concrete model and batch. -/
theorem rawr_index_partition_witness :
    ∃ idx : List Nat,
      ((get_rawr sevenModel [[5, 7, 9]] 2).1.getD 0 []).getD 0 []
          = idx.map (fun p => ([[5, 7, 9]].getD 0 []).getD p 0) ∧
      idx.Pairwise (· < ·) ∧
      (∀ p, (p ∈ idx ∨ p ∈ ((get_rawr sevenModel [[5, 7, 9]] 2).2.getD 0 []).getD 0 []) ↔
        p < ([[5, 7, 9]].getD 0 []).length) ∧
      (∀ p ∈ idx, p ∉ ((get_rawr sevenModel [[5, 7, 9]] 2).2.getD 0 []).getD 0 []) :=
  rawr_index_partition sevenModel [[5, 7, 9]] 2 (fun _ => rfl) 0 (by decide) 0
    (by decide)

/-- Claim C7: an example for which every single-token removal changes
the prediction (so no prediction-preserving reduction is ever found)
comes back with exactly one result: the seeded original full sequence
with an empty removed-index list. -/
theorem rawr_failure_keeps_original (M : Model) (xs : List (List Int))
    (mbs : Nat) (hG : GradLen M) (e : Nat) (he : e < xs.length)
    (hnr : ∀ j, j + 1 < (xs.getD e []).length →
      M.predict ((xs.getD e []).eraseIdx j) ≠ M.predict (xs.getD e [])) :
    (get_rawr M xs mbs).1.getD e [] = [xs.getD e []] ∧
    (get_rawr M xs mbs).2.getD e [] = [[]] :=
  (get_rawr_finalsOK M xs mbs hG e he).2 hnr

/-- Witness for C7 on a concrete model and batch. -/
theorem rawr_failure_keeps_original_witness :
    (get_rawr lengthModel [[5, 9]] 5).1.getD 0 [] = [[[5, 9]].getD 0 []] ∧
    (get_rawr lengthModel [[5, 9]] 5).2.getD 0 [] = [[]] :=
  rawr_failure_keeps_original lengthModel [[5, 9]] 5 (fun _ => rfl) 0
    (by decide)
    (by
      intro j hj
      have h2 : (([[5, 9]] : List (List Int)).getD 0 []).length = 2 := rfl
      rw [h2] at hj
      have hj0 : j = 0 := by omega
      subst hj0
      decide)

/-- Claim C5, counterexample to strictness: with a model for which no
reduction preserves the prediction, the recorded "reduction" is the
seeded original sequence itself, so it is not a STRICT subsequence of
the original (the inequality the claim asserts fails). -/
theorem rawr_strict_sublist_counterexample :
    (get_rawr lengthModel [[5, 9]] 5).1 = [[[5, 9]]] ∧
    ((get_rawr lengthModel [[5, 9]] 5).1.getD 0 []).getD 0 [] = [5, 9] ∧
    ¬ ((get_rawr lengthModel [[5, 9]] 5).1.getD 0 []).getD 0 []
        ≠ [[5, 9]].getD 0 [] := by
  decide

/-- Claim C5 as amended: every recorded sequence has length at most
the original's, is a subsequence (not necessarily strict: the seeded
original itself remains when no reduction is found) of the original,
and its last element is the original's terminator token. -/
theorem rawr_monotonic_shrinkage (M : Model) (xs : List (List Int))
    (mbs : Nat) (hG : GradLen M) (e : Nat) (he : e < xs.length) :
    ∀ x ∈ (get_rawr M xs mbs).1.getD e [],
      x.length ≤ (xs.getD e []).length ∧ x.Sublist (xs.getD e []) ∧
      (xs.getD e [] ≠ [] → x.getLast? = (xs.getD e []).getLast?) := by
  intro x hx
  have hF := (get_rawr_finalsOK M xs mbs hG e he).1
  obtain ⟨k, hk, hxk⟩ := List.mem_iff_getElem.mp hx
  have hxd : ((get_rawr M xs mbs).1.getD e []).getD k [] = x := by
    rw [List.getD_eq_getElem _ _ hk]
    exact hxk
  obtain ⟨idx, hb⟩ := hF.beam k hk
  rw [hxd] at hb
  refine ⟨hb.x_le, hb.x_sublist, ?_⟩
  intro ho
  have hlast := hb.last ho
  have hlen : 0 < (xs.getD e []).length := List.length_pos.mpr ho
  rw [hb.x_eq, List.getLast?_map, hlast, List.getLast?_eq_getElem?,
    List.getElem?_eq_getElem (by omega)]
  rw [Option.map_some']
  rw [List.getD_eq_getElem _ _ (by omega)]

/-- Witness for the amended C5 on a concrete model and batch. -/
theorem rawr_monotonic_shrinkage_witness :
    ([7, 9] : List Int).length ≤ (([[5, 7, 9]] : List (List Int)).getD 0 []).length ∧
    ([7, 9] : List Int).Sublist (([[5, 7, 9]] : List (List Int)).getD 0 []) ∧
    (([[5, 7, 9]] : List (List Int)).getD 0 [] ≠ [] →
      ([7, 9] : List Int).getLast? = (([[5, 7, 9]] : List (List Int)).getD 0 []).getLast?) :=
  rawr_monotonic_shrinkage sevenModel [[5, 7, 9]] 2 (fun _ => rfl) 0 (by decide)
    [7, 9] (by decide)

/-- Claim C2, counterexample: the candidate pool of this two-beam
example contains a saliency-0 candidate (beam 0, position 0, child
`[5, 9]`) and a saliency-3 candidate (beam 1, position 0, child
`[7, 9]`); with `max_beam_size = 1` the code expands the
HIGHEST-saliency pool candidate (`sorted(key=lambda x: -x[0])`), not
the lowest-saliency one the claim asserts. -/
theorem rawr_pool_selection_counterexample :
    ((0 : Int), 0, 0) ∈ poolCoords constModel 1 [[0, 5, 9], [3, 7, 9]] ∧
    ((3 : Int), 1, 0) ∈ poolCoords constModel 1 [[0, 5, 9], [3, 7, 9]] ∧
    (remove_one constModel [[0, 5, 9], [3, 7, 9]] [2]
        [[0, 1, 2], [0, 1, 2]] [[], []] 1).xs = [[7, 9]] ∧
    ¬ (remove_one constModel [[0, 5, 9], [3, 7, 9]] [2]
        [[0, 1, 2], [0, 1, 2]] [[], []] 1).xs = [[5, 9]] := by
  decide

theorem chosenCoords_sorted (M : Model) (mbs : Nat) (xs : List (List Int)) :
    ((poolCoords M mbs xs).insertionSort (fun a b => b.1 ≤ a.1)).Pairwise
      (fun a b : Int × Nat × Nat => b.1 ≤ a.1) := by
  haveI h1 : IsTotal (Int × Nat × Nat) (fun a b => b.1 ≤ a.1) :=
    ⟨fun _ _ => le_total _ _⟩
  haveI h2 : IsTrans (Int × Nat × Nat) (fun a b => b.1 ≤ a.1) :=
    ⟨fun _ _ _ hab hbc => le_trans hbc hab⟩
  exact List.sorted_insertionSort _ _

theorem pairwise_take_drop {α : Type} {r : α → α → Prop} {l : List α}
    (h : l.Pairwise r) (n : Nat) :
    ∀ a ∈ l.take n, ∀ b ∈ l.drop n, r a b := by
  have h2 : (l.take n ++ l.drop n).Pairwise r := by
    rw [List.take_append_drop]
    exact h
  exact (List.pairwise_append.mp h2).2.2

theorem getD_dropLast {g : List Int} {j : Nat} (h : j < g.dropLast.length) :
    g.dropLast.getD j 0 = g.getD j 0 := by
  have h2 : j < g.length := by
    rw [List.length_dropLast] at h
    omega
  rw [List.getD_eq_getElem _ _ h, List.getD_eq_getElem _ _ h2]
  exact List.getElem_dropLast g j h

/-- Claim C2 as amended: each beam contributes its `max_beam_size`
lowest-saliency non-terminator positions, but the pooled candidates
are then sorted by DESCENDING saliency and the `max_beam_size`
HIGHEST-saliency candidates of the pool are the ones expanded into
child beams (the code sorts the pool by the key `-saliency`). -/
theorem rawr_pool_selection_amended (M : Model) (mbs : Nat)
    (xs : List (List Int)) (inds rems : List (List Nat)) (hG : GradLen M)
    (hlive : xs ≠ []) (hpool : poolCoords M mbs xs ≠ []) :
    (∀ i, i < xs.length → ∀ j ∈ beamCands (M.grad (xs.getD i [])) mbs,
      j + 1 < (xs.getD i []).length ∧
      ∀ j2, j2 + 1 < (xs.getD i []).length →
        j2 ∉ beamCands (M.grad (xs.getD i [])) mbs →
          (M.grad (xs.getD i [])).getD j 0 ≤ (M.grad (xs.getD i [])).getD j2 0) ∧
    (exampleStep M mbs xs inds rems).cnt = min mbs (poolCoords M mbs xs).length ∧
    (∀ c ∈ chosenCoords M mbs xs, c ∈ poolCoords M mbs xs) ∧
    (∀ c2 ∈ poolCoords M mbs xs, c2 ∉ chosenCoords M mbs xs →
      ∀ c ∈ chosenCoords M mbs xs, c2.1 ≤ c.1) ∧
    (exampleStep M mbs xs inds rems).xs
      = (chosenCoords M mbs xs).map (fun c => (xs.getD c.2.1 []).eraseIdx c.2.2) := by
  refine ⟨?_, ?_, fun c hc => chosen_subset_pool hc, ?_, rfl⟩
  · intro i hi j hj
    have hjb : j + 1 < (xs.getD i []).length := by
      have h2 := beamCands_lt hj
      rw [hG] at h2
      exact h2
    refine ⟨hjb, ?_⟩
    intro j2 hj2 hj2n
    have hvlen : (M.grad (xs.getD i [])).dropLast.length
        = (xs.getD i []).length - 1 := by
      rw [List.length_dropLast, hG]
    have hj2v : j2 ∈ argsort (M.grad (xs.getD i [])).dropLast := by
      rw [mem_argsort, hvlen]
      omega
    have hsplit := List.take_append_drop mbs (argsort (M.grad (xs.getD i [])).dropLast)
    have hj2d : j2 ∈ (argsort (M.grad (xs.getD i [])).dropLast).drop mbs := by
      rw [← hsplit] at hj2v
      rcases List.mem_append.mp hj2v with h2 | h2
      · exact absurd h2 hj2n
      · exact h2
    have hrel := pairwise_take_drop
      (argsort_sorted (M.grad (xs.getD i [])).dropLast) mbs j hj j2 hj2d
    have hjv : j < (M.grad (xs.getD i [])).dropLast.length := by
      rw [hvlen]
      omega
    have hj2vl : j2 < (M.grad (xs.getD i [])).dropLast.length := by
      rw [hvlen]
      omega
    rw [getD_dropLast hjv, getD_dropLast hj2vl] at hrel
    exact hrel
  · have hl : ((poolCoords M mbs xs).insertionSort
        (fun a b => b.1 ≤ a.1)).length = (poolCoords M mbs xs).length :=
      (List.perm_insertionSort _ _).length_eq
    show (chosenCoords M mbs xs).length = _
    rw [chosenCoords, List.length_take, hl]
  · intro c2 hc2 hc2n c hc
    have hc2s : c2 ∈ (poolCoords M mbs xs).insertionSort (fun a b => b.1 ≤ a.1) :=
      (List.mem_insertionSort _).mpr hc2
    have hsplit := List.take_append_drop mbs
      ((poolCoords M mbs xs).insertionSort (fun a b => b.1 ≤ a.1))
    have hc2d : c2 ∈ ((poolCoords M mbs xs).insertionSort
        (fun a b => b.1 ≤ a.1)).drop mbs := by
      rw [← hsplit] at hc2s
      rcases List.mem_append.mp hc2s with h2 | h2
      · exact absurd h2 hc2n
      · exact h2
    exact pairwise_take_drop (chosenCoords_sorted M mbs xs) mbs c hc c2 hc2d

/-- Witness for the amended C2 on a concrete two-beam example. -/
theorem rawr_pool_selection_amended_witness :
    (∀ i, i < ([[0, 5, 9], [3, 7, 9]] : List (List Int)).length →
      ∀ j ∈ beamCands (constModel.grad (([[0, 5, 9], [3, 7, 9]] : List (List Int)).getD i [])) 1,
      j + 1 < (([[0, 5, 9], [3, 7, 9]] : List (List Int)).getD i []).length ∧
      ∀ j2, j2 + 1 < (([[0, 5, 9], [3, 7, 9]] : List (List Int)).getD i []).length →
        j2 ∉ beamCands (constModel.grad (([[0, 5, 9], [3, 7, 9]] : List (List Int)).getD i [])) 1 →
          (constModel.grad (([[0, 5, 9], [3, 7, 9]] : List (List Int)).getD i [])).getD j 0
            ≤ (constModel.grad (([[0, 5, 9], [3, 7, 9]] : List (List Int)).getD i [])).getD j2 0) ∧
    (exampleStep constModel 1 [[0, 5, 9], [3, 7, 9]] [[0, 1, 2], [0, 1, 2]] [[], []]).cnt
      = min 1 (poolCoords constModel 1 [[0, 5, 9], [3, 7, 9]]).length ∧
    (∀ c ∈ chosenCoords constModel 1 [[0, 5, 9], [3, 7, 9]],
      c ∈ poolCoords constModel 1 [[0, 5, 9], [3, 7, 9]]) ∧
    (∀ c2 ∈ poolCoords constModel 1 [[0, 5, 9], [3, 7, 9]],
      c2 ∉ chosenCoords constModel 1 [[0, 5, 9], [3, 7, 9]] →
      ∀ c ∈ chosenCoords constModel 1 [[0, 5, 9], [3, 7, 9]], c2.1 ≤ c.1) ∧
    (exampleStep constModel 1 [[0, 5, 9], [3, 7, 9]] [[0, 1, 2], [0, 1, 2]] [[], []]).xs
      = (chosenCoords constModel 1 [[0, 5, 9], [3, 7, 9]]).map
          (fun c => (([[0, 5, 9], [3, 7, 9]] : List (List Int)).getD c.2.1 []).eraseIdx c.2.2) :=
  rawr_pool_selection_amended constModel 1 [[0, 5, 9], [3, 7, 9]]
    [[0, 1, 2], [0, 1, 2]] [[], []] (fun _ => rfl) (by decide) (by decide)

theorem removeOneGo_lens (M : Model) (mbs : Nat) :
    ∀ (nbs : List Nat) (xs : List (List Int)) (inds rems : List (List Nat)),
      (removeOneGo M mbs nbs xs inds rems).inds.length
        = (removeOneGo M mbs nbs xs inds rems).xs.length ∧
      (removeOneGo M mbs nbs xs inds rems).rems.length
        = (removeOneGo M mbs nbs xs inds rems).xs.length ∧
      (removeOneGo M mbs nbs xs inds rems).nbs.sum
        = (removeOneGo M mbs nbs xs inds rems).xs.length ∧
      (removeOneGo M mbs nbs xs inds rems).nbs.length = nbs.length
  | [], _, _, _ => ⟨rfl, rfl, rfl, rfl⟩
  | nb :: nbs, xs, inds, rems => by
    have ih := removeOneGo_lens M mbs nbs (xs.drop nb) (inds.drop nb) (rems.drop nb)
    have h1 := exampleStep_xs_len M mbs (xs.take nb) (inds.take nb) (rems.take nb)
    have h2 := exampleStep_inds_len M mbs (xs.take nb) (inds.take nb) (rems.take nb)
    have h3 := exampleStep_rems_len M mbs (xs.take nb) (inds.take nb) (rems.take nb)
    rw [removeOneGo_cons]
    simp only [List.length_append, List.sum_cons, List.length_cons]
    omega

theorem procBeams_lens {M : Model} {y0 : Nat} :
    ∀ (xs : List (List Int)) (inds rems : List (List Nat)) (fl : Nat)
      (fx : List (List Int)) (fr : List (List Nat)),
      (procBeams M y0 xs inds rems fl fx fr).inds.length
        = (procBeams M y0 xs inds rems fl fx fr).xs.length ∧
      (procBeams M y0 xs inds rems fl fx fr).rems.length
        = (procBeams M y0 xs inds rems fl fx fr).xs.length
  | [], [], [], _, _, _ => ⟨rfl, rfl⟩
  | [], [], _ :: _, _, _, _ => ⟨rfl, rfl⟩
  | [], _ :: _, _, _, _, _ => ⟨rfl, rfl⟩
  | _ :: _, [], _, _, _, _ => ⟨rfl, rfl⟩
  | _ :: _, _ :: _, [], _, _, _ => ⟨rfl, rfl⟩
  | x :: xs, idx :: inds, rem :: rems, fl, fx, fr => by
    by_cases hpred : M.predict x = y0
    · by_cases hlen : x.length = 1
      · simp only [procBeams, if_pos hpred, if_pos hlen]
        exact procBeams_lens xs inds rems _ _ _
      · simp only [procBeams, if_pos hpred, if_neg hlen]
        have ih := @procBeams_lens M y0 xs inds rems
          (if x.length < fl then (x.length, [x], [rem])
           else if x.length = fl ∧ x ∉ fx then (fl, fx ++ [x], fr ++ [rem])
           else (fl, fx, fr)).1
          (if x.length < fl then (x.length, [x], [rem])
           else if x.length = fl ∧ x ∉ fx then (fl, fx ++ [x], fr ++ [rem])
           else (fl, fx, fr)).2.1
          (if x.length < fl then (x.length, [x], [rem])
           else if x.length = fl ∧ x ∉ fx then (fl, fx ++ [x], fr ++ [rem])
           else (fl, fx, fr)).2.2
        simp only [List.length_cons]
        omega
    · simp only [procBeams, if_neg hpred]
      exact procBeams_lens xs inds rems fl fx fr

theorem roundGo_lens (M : Model) :
    ∀ (nbs ys : List Nat) (xs : List (List Int)) (inds rems : List (List Nat))
      (fls : List Nat) (fxs : List (List (List Int)))
      (frs : List (List (List Nat))),
      (roundGo M nbs ys xs inds rems fls fxs frs).nbs.sum
        = (roundGo M nbs ys xs inds rems fls fxs frs).xs.length ∧
      (roundGo M nbs ys xs inds rems fls fxs frs).inds.length
        = (roundGo M nbs ys xs inds rems fls fxs frs).xs.length ∧
      (roundGo M nbs ys xs inds rems fls fxs frs).rems.length
        = (roundGo M nbs ys xs inds rems fls fxs frs).xs.length
  | [], _, _, _, _, _, _, _ => ⟨rfl, rfl, rfl⟩
  | _ :: _, [], _, _, _, _, _, _ => ⟨rfl, rfl, rfl⟩
  | _ :: _, _ :: _, _, _, _, [], _, _ => ⟨rfl, rfl, rfl⟩
  | _ :: _, _ :: _, _, _, _, _ :: _, [], _ => ⟨rfl, rfl, rfl⟩
  | _ :: _, _ :: _, _, _, _, _ :: _, _ :: _, [] => ⟨rfl, rfl, rfl⟩
  | nb :: nbs, y0 :: ys, xs, inds, rems, fl :: fls, fx :: fxs, fr :: frs => by
    have ih := roundGo_lens M nbs ys (xs.drop nb) (inds.drop nb) (rems.drop nb)
      fls fxs frs
    have hp := @procBeams_lens M y0 (xs.take nb) (inds.take nb)
      (rems.take nb) fl fx fr
    rw [roundGo_cons]
    simp only [List.length_append, List.sum_cons]
    omega

theorem removeOneGo_dead (M : Model) (mbs : Nat) :
    ∀ (nbs : List Nat) (xs : List (List Int)) (inds rems : List (List Nat))
      (e : Nat), nbs.getD e 0 = 0 →
      (removeOneGo M mbs nbs xs inds rems).nbs.getD e 0 = 0
  | [], _, _, _, _, _ => by simp [removeOneGo]
  | nb :: nbs, xs, inds, rems, 0, h => by
    have h0 : nb = 0 := by simpa using h
    subst h0
    rw [removeOneGo_cons]
    show (exampleStep M mbs (xs.take 0) (inds.take 0) (rems.take 0)).cnt = 0
    rw [List.take_zero, List.take_zero, List.take_zero,
      exampleStep_empty (chosenCoords_nil M mbs)]
  | nb :: nbs, xs, inds, rems, e + 1, h => by
    rw [removeOneGo_cons]
    show (removeOneGo M mbs nbs (xs.drop nb) (inds.drop nb) (rems.drop nb)).nbs.getD e 0 = 0
    exact removeOneGo_dead M mbs nbs _ _ _ e (by simpa using h)

theorem roundGo_dead (M : Model) :
    ∀ (nbs ys : List Nat) (xs : List (List Int)) (inds rems : List (List Nat))
      (fls : List Nat) (fxs : List (List (List Int)))
      (frs : List (List (List Nat))) (e : Nat), nbs.getD e 0 = 0 →
      (roundGo M nbs ys xs inds rems fls fxs frs).nbs.getD e 0 = 0
  | [], _, _, _, _, _, _, _, _, _ => by simp [roundGo]
  | _ :: _, [], _, _, _, _, _, _, _, _ => by simp [roundGo]
  | _ :: _, _ :: _, _, _, _, [], _, _, _, _ => by simp [roundGo]
  | _ :: _, _ :: _, _, _, _, _ :: _, [], _, _, _ => by simp [roundGo]
  | _ :: _, _ :: _, _, _, _, _ :: _, _ :: _, [], _, _ => by simp [roundGo]
  | nb :: nbs, y0 :: ys, xs, inds, rems, fl :: fls, fx :: fxs, fr :: frs, 0, h => by
    have h0 : nb = 0 := by simpa using h
    subst h0
    rw [roundGo_cons]
    show (procBeams M y0 (xs.take 0) (inds.take 0) (rems.take 0) fl fx fr).xs.length = 0
    rw [List.take_zero, List.take_zero, List.take_zero]
    rfl
  | nb :: nbs, y0 :: ys, xs, inds, rems, fl :: fls, fx :: fxs, fr :: frs, e + 1, h => by
    rw [roundGo_cons]
    show (roundGo M nbs ys (xs.drop nb) (inds.drop nb) (rems.drop nb) fls fxs frs).nbs.getD e 0 = 0
    exact roundGo_dead M nbs ys _ _ _ fls fxs frs e (by simpa using h)

theorem sum_map_one {α : Type} : ∀ (l : List α), (l.map fun _ => 1).sum = l.length
  | [] => rfl
  | _ :: l => by
    simp only [List.map_cons, List.sum_cons, List.length_cons, sum_map_one l]
    omega

/-- Claim C9: the flat-state bookkeeping invariant holds at the start,
is restored by every round of `get_rawr` (and already by the
intermediate `remove_one` output), and an example whose beam count
reaches 0 keeps count 0 in all later rounds. -/
theorem rawr_round_state_invariant (M : Model) (mbs : Nat) (ys0 : List Nat) :
    (∀ xs : List (List Int), StateOK (initState xs)) ∧
    (∀ s : RState,
      (remove_one M s.xs s.n_beams s.indices s.removed mbs).nbs.sum
        = (remove_one M s.xs s.n_beams s.indices s.removed mbs).xs.length ∧
      (remove_one M s.xs s.n_beams s.indices s.removed mbs).xs.length
        = (remove_one M s.xs s.n_beams s.indices s.removed mbs).inds.length ∧
      (remove_one M s.xs s.n_beams s.indices s.removed mbs).inds.length
        = (remove_one M s.xs s.n_beams s.indices s.removed mbs).rems.length) ∧
    (∀ s : RState, StateOK (rawrStep M mbs ys0 s)) ∧
    (∀ s : RState, ∀ e : Nat, s.n_beams.getD e 0 = 0 →
      (rawrStep M mbs ys0 s).n_beams.getD e 0 = 0) := by
  refine ⟨?_, ?_, ?_, ?_⟩
  · intro xs
    refine ⟨?_, ?_, ?_⟩
    · show (xs.map fun _ => 1).sum = xs.length
      exact sum_map_one xs
    · show xs.length = (xs.map fun x => List.range x.length).length
      rw [List.length_map]
    · show (xs.map fun x => List.range x.length).length
        = (xs.map fun _ => ([] : List Nat)).length
      rw [List.length_map, List.length_map]
  · intro s
    obtain ⟨h1, h2, h3, _⟩ := removeOneGo_lens M mbs s.n_beams s.xs s.indices s.removed
    refine ⟨?_, ?_, ?_⟩
    · show (removeOneGo M mbs s.n_beams s.xs s.indices s.removed).nbs.sum
        = (removeOneGo M mbs s.n_beams s.xs s.indices s.removed).xs.length
      exact h3
    · show (removeOneGo M mbs s.n_beams s.xs s.indices s.removed).xs.length
        = (removeOneGo M mbs s.n_beams s.xs s.indices s.removed).inds.length
      omega
    · show (removeOneGo M mbs s.n_beams s.xs s.indices s.removed).inds.length
        = (removeOneGo M mbs s.n_beams s.xs s.indices s.removed).rems.length
      omega
  · intro s
    obtain ⟨h1, h2, h3⟩ := roundGo_lens M
      (removeOneGo M mbs s.n_beams s.xs s.indices s.removed).nbs
      ys0 (removeOneGo M mbs s.n_beams s.xs s.indices s.removed).xs
      (removeOneGo M mbs s.n_beams s.xs s.indices s.removed).inds
      (removeOneGo M mbs s.n_beams s.xs s.indices s.removed).rems
      s.finLen s.finXs s.finRem
    refine ⟨?_, ?_, ?_⟩
    · show (roundGo M (removeOneGo M mbs s.n_beams s.xs s.indices s.removed).nbs
        ys0 (removeOneGo M mbs s.n_beams s.xs s.indices s.removed).xs
        (removeOneGo M mbs s.n_beams s.xs s.indices s.removed).inds
        (removeOneGo M mbs s.n_beams s.xs s.indices s.removed).rems
        s.finLen s.finXs s.finRem).nbs.sum
        = (roundGo M (removeOneGo M mbs s.n_beams s.xs s.indices s.removed).nbs
        ys0 (removeOneGo M mbs s.n_beams s.xs s.indices s.removed).xs
        (removeOneGo M mbs s.n_beams s.xs s.indices s.removed).inds
        (removeOneGo M mbs s.n_beams s.xs s.indices s.removed).rems
        s.finLen s.finXs s.finRem).xs.length
      exact h1
    · show (roundGo M (removeOneGo M mbs s.n_beams s.xs s.indices s.removed).nbs
        ys0 (removeOneGo M mbs s.n_beams s.xs s.indices s.removed).xs
        (removeOneGo M mbs s.n_beams s.xs s.indices s.removed).inds
        (removeOneGo M mbs s.n_beams s.xs s.indices s.removed).rems
        s.finLen s.finXs s.finRem).xs.length
        = (roundGo M (removeOneGo M mbs s.n_beams s.xs s.indices s.removed).nbs
        ys0 (removeOneGo M mbs s.n_beams s.xs s.indices s.removed).xs
        (removeOneGo M mbs s.n_beams s.xs s.indices s.removed).inds
        (removeOneGo M mbs s.n_beams s.xs s.indices s.removed).rems
        s.finLen s.finXs s.finRem).inds.length
      omega
    · show (roundGo M (removeOneGo M mbs s.n_beams s.xs s.indices s.removed).nbs
        ys0 (removeOneGo M mbs s.n_beams s.xs s.indices s.removed).xs
        (removeOneGo M mbs s.n_beams s.xs s.indices s.removed).inds
        (removeOneGo M mbs s.n_beams s.xs s.indices s.removed).rems
        s.finLen s.finXs s.finRem).inds.length
        = (roundGo M (removeOneGo M mbs s.n_beams s.xs s.indices s.removed).nbs
        ys0 (removeOneGo M mbs s.n_beams s.xs s.indices s.removed).xs
        (removeOneGo M mbs s.n_beams s.xs s.indices s.removed).inds
        (removeOneGo M mbs s.n_beams s.xs s.indices s.removed).rems
        s.finLen s.finXs s.finRem).rems.length
      omega
  · intro s e h
    exact roundGo_dead M _ ys0 _ _ _ s.finLen s.finXs s.finRem e
      (removeOneGo_dead M mbs s.n_beams s.xs s.indices s.removed e h)

/-- Witness for C9: the dead-example propagation instantiated on a
concrete state with a zero beam count. -/
theorem rawr_round_state_invariant_witness :
    StateOK (initState [[5, 7, 9]]) ∧
    (rawrStep constModel 1 [0]
      { xs := [], n_beams := [0], indices := [], removed := [],
        finLen := [3], finXs := [[[5, 7, 9]]],
        finRem := [[[]]] }).n_beams.getD 0 0 = 0 :=
  ⟨(rawr_round_state_invariant constModel 1 [0]).1 [[5, 7, 9]],
   (rawr_round_state_invariant constModel 1 [0]).2.2.2
     { xs := [], n_beams := [0], indices := [], removed := [],
       finLen := [3], finXs := [[[5, 7, 9]]], finRem := [[[]]] } 0 (by decide)⟩

theorem removeOneGo_children (M : Model) (mbs : Nat) (hG : GradLen M) :
    ∀ (nbs : List Nat) (xs : List (List Int)) (inds rems : List (List Nat)),
      ∀ x2 ∈ (removeOneGo M mbs nbs xs inds rems).xs,
        ∃ x ∈ xs, x2.length + 1 = x.length
  | [], _, _, _ => by
    intro x2 hx2
    exact absurd hx2 (by simp [removeOneGo])
  | nb :: nbs, xs, inds, rems => by
    intro x2 hx2
    rw [removeOneGo_cons] at hx2
    rcases List.mem_append.mp hx2 with h2 | h2
    · obtain ⟨x, hx, hlen⟩ := exampleStep_children_len hG x2 h2
      exact ⟨x, List.take_subset _ _ hx, hlen⟩
    · obtain ⟨x, hx, hlen⟩ := removeOneGo_children M mbs hG nbs _ _ _ x2 h2
      exact ⟨x, List.drop_subset _ _ hx, hlen⟩

theorem roundGo_xs_subset (M : Model) :
    ∀ (nbs ys : List Nat) (xs : List (List Int)) (inds rems : List (List Nat))
      (fls : List Nat) (fxs : List (List (List Int)))
      (frs : List (List (List Nat))),
      ∀ x2 ∈ (roundGo M nbs ys xs inds rems fls fxs frs).xs, x2 ∈ xs
  | [], _, _, _, _, _, _, _ => by
    intro x2 hx2
    exact absurd hx2 (by simp [roundGo])
  | _ :: _, [], _, _, _, _, _, _ => by
    intro x2 hx2
    exact absurd hx2 (by simp [roundGo])
  | _ :: _, _ :: _, _, _, _, [], _, _ => by
    intro x2 hx2
    exact absurd hx2 (by simp [roundGo])
  | _ :: _, _ :: _, _, _, _, _ :: _, [], _ => by
    intro x2 hx2
    exact absurd hx2 (by simp [roundGo])
  | _ :: _, _ :: _, _, _, _, _ :: _, _ :: _, [] => by
    intro x2 hx2
    exact absurd hx2 (by simp [roundGo])
  | nb :: nbs, y0 :: ys, xs, inds, rems, fl :: fls, fx :: fxs, fr :: frs => by
    intro x2 hx2
    rw [roundGo_cons] at hx2
    rcases List.mem_append.mp hx2 with h2 | h2
    · exact List.take_subset nb xs (procBeams_xs_subset _ _ _ _ _ _ x2 h2)
    · exact List.drop_subset nb xs
        (roundGo_xs_subset M nbs ys _ _ _ fls fxs frs x2 h2)

theorem removeOneGo_short (M : Model) (mbs : Nat) (hG : GradLen M) :
    ∀ (nbs : List Nat) (xs : List (List Int)) (inds rems : List (List Nat)),
      (∀ x ∈ xs, x.length ≤ 1) →
      (removeOneGo M mbs nbs xs inds rems).xs = [] ∧
      (removeOneGo M mbs nbs xs inds rems).inds = [] ∧
      (removeOneGo M mbs nbs xs inds rems).rems = [] ∧
      (∀ nb2 ∈ (removeOneGo M mbs nbs xs inds rems).nbs, nb2 = 0)
  | [], _, _, _, _ => ⟨rfl, rfl, rfl, by simp [removeOneGo]⟩
  | nb :: nbs, xs, inds, rems, hshort => by
    have hex : chosenCoords M mbs (xs.take nb) = [] :=
      chosenCoords_short hG (fun x hx => hshort x (List.take_subset _ _ hx))
    have ih := removeOneGo_short M mbs hG nbs (xs.drop nb) (inds.drop nb)
      (rems.drop nb) (fun x hx => hshort x (List.drop_subset _ _ hx))
    rw [removeOneGo_cons, exampleStep_empty hex]
    refine ⟨?_, ?_, ?_, ?_⟩
    · show ([] : List (List Int)) ++ _ = []
      rw [List.nil_append]
      exact ih.1
    · show ([] : List (List Nat)) ++ _ = []
      rw [List.nil_append]
      exact ih.2.1
    · show ([] : List (List Nat)) ++ _ = []
      rw [List.nil_append]
      exact ih.2.2.1
    · intro nb2 h2
      rcases List.mem_cons.mp h2 with h3 | h3
      · exact h3
      · exact ih.2.2.2 nb2 h3

theorem roundGo_zeros (M : Model) :
    ∀ (nbs ys : List Nat) (xs : List (List Int)) (inds rems : List (List Nat))
      (fls : List Nat) (fxs : List (List (List Int)))
      (frs : List (List (List Nat))),
      nbs.length = ys.length → fls.length = ys.length →
      fxs.length = ys.length → frs.length = ys.length →
      (∀ nb ∈ nbs, nb = 0) →
      (roundGo M nbs ys xs inds rems fls fxs frs).xs = [] ∧
      (roundGo M nbs ys xs inds rems fls fxs frs).finLen = fls ∧
      (roundGo M nbs ys xs inds rems fls fxs frs).finXs = fxs ∧
      (roundGo M nbs ys xs inds rems fls fxs frs).finRem = frs := by
  intro nbs
  induction nbs with
  | nil =>
    intro ys xs inds rems fls fxs frs h1 h2 h3 h4 _
    simp only [List.length_nil] at h1
    have hys : ys = [] := List.length_eq_zero.mp h1.symm
    subst hys
    simp only [List.length_nil] at h2 h3 h4
    have hfls : fls = [] := List.length_eq_zero.mp h2
    have hfxs : fxs = [] := List.length_eq_zero.mp h3
    have hfrs : frs = [] := List.length_eq_zero.mp h4
    subst hfls
    subst hfxs
    subst hfrs
    exact ⟨rfl, rfl, rfl, rfl⟩
  | cons nb nbs ih =>
    intro ys xs inds rems fls fxs frs h1 h2 h3 h4 hz
    cases ys with
    | nil => exact absurd h1 (by simp)
    | cons y0 ys =>
      cases fls with
      | nil => exact absurd h2 (by simp)
      | cons fl fls =>
        cases fxs with
        | nil => exact absurd h3 (by simp)
        | cons fx fxs =>
          cases frs with
          | nil => exact absurd h4 (by simp)
          | cons fr frs =>
            have hnb : nb = 0 := hz nb (List.mem_cons_self nb nbs)
            subst hnb
            obtain ⟨g1, g2, g3, g4⟩ := ih ys (xs.drop 0) (inds.drop 0)
              (rems.drop 0) fls fxs frs (by simpa using h1) (by simpa using h2)
              (by simpa using h3) (by simpa using h4)
              (fun nb2 h2 => hz nb2 (List.mem_cons_of_mem _ h2))
            rw [roundGo_cons]
            rw [List.take_zero, List.take_zero, List.take_zero]
            refine ⟨?_, ?_, ?_, ?_⟩
            · show (procBeams M y0 [] [] [] fl fx fr).xs ++ _ = []
              rw [show (procBeams M y0 [] [] [] fl fx fr).xs = [] from rfl,
                List.nil_append]
              exact g1
            · show (procBeams M y0 [] [] [] fl fx fr).finLen :: _ = fl :: fls
              rw [show (procBeams M y0 [] [] [] fl fx fr).finLen = fl from rfl, g2]
            · show (procBeams M y0 [] [] [] fl fx fr).finXs :: _ = fx :: fxs
              rw [show (procBeams M y0 [] [] [] fl fx fr).finXs = fx from rfl, g3]
            · show (procBeams M y0 [] [] [] fl fx fr).finRem :: _ = fr :: frs
              rw [show (procBeams M y0 [] [] [] fl fx fr).finRem = fr from rfl, g4]

theorem roundGo_out_lens (M : Model) :
    ∀ (nbs ys : List Nat) (xs : List (List Int)) (inds rems : List (List Nat))
      (fls : List Nat) (fxs : List (List (List Int)))
      (frs : List (List (List Nat))),
      nbs.length = ys.length → fls.length = ys.length →
      fxs.length = ys.length → frs.length = ys.length →
      (roundGo M nbs ys xs inds rems fls fxs frs).nbs.length = ys.length ∧
      (roundGo M nbs ys xs inds rems fls fxs frs).finLen.length = ys.length ∧
      (roundGo M nbs ys xs inds rems fls fxs frs).finXs.length = ys.length ∧
      (roundGo M nbs ys xs inds rems fls fxs frs).finRem.length = ys.length := by
  intro nbs
  induction nbs with
  | nil =>
    intro ys xs inds rems fls fxs frs h1 _ _ _
    simp only [List.length_nil] at h1
    have hys : ys = [] := List.length_eq_zero.mp h1.symm
    subst hys
    exact ⟨rfl, rfl, rfl, rfl⟩
  | cons nb nbs ih =>
    intro ys xs inds rems fls fxs frs h1 h2 h3 h4
    cases ys with
    | nil => exact absurd h1 (by simp)
    | cons y0 ys =>
      cases fls with
      | nil => exact absurd h2 (by simp)
      | cons fl fls =>
        cases fxs with
        | nil => exact absurd h3 (by simp)
        | cons fx fxs =>
          cases frs with
          | nil => exact absurd h4 (by simp)
          | cons fr frs =>
            obtain ⟨g1, g2, g3, g4⟩ := ih ys (xs.drop nb) (inds.drop nb)
              (rems.drop nb) fls fxs frs (by simpa using h1) (by simpa using h2)
              (by simpa using h3) (by simpa using h4)
            rw [roundGo_cons]
            simp only [List.length_cons]
            omega

theorem aligned_step (M : Model) (mbs : Nat) (ys0 : List Nat) (s : RState)
    (h : Aligned ys0.length s) :
    Aligned ys0.length (rawrStep M mbs ys0 s) := by
  obtain ⟨h1, h2, h3, h4⟩ := h
  have hr := removeOneGo_lens M mbs s.n_beams s.xs s.indices s.removed
  have ho := roundGo_out_lens M
    (removeOneGo M mbs s.n_beams s.xs s.indices s.removed).nbs ys0
    (removeOneGo M mbs s.n_beams s.xs s.indices s.removed).xs
    (removeOneGo M mbs s.n_beams s.xs s.indices s.removed).inds
    (removeOneGo M mbs s.n_beams s.xs s.indices s.removed).rems
    s.finLen s.finXs s.finRem (by omega) h2 h3 h4
  exact ho

theorem mem_maxLen : ∀ (xs : List (List Int)), ∀ x ∈ xs, x.length ≤ maxLen xs
  | [], _, hx => absurd hx (by simp)
  | x0 :: xs, x, hx => by
    rcases List.mem_cons.mp hx with h2 | h2
    · subst h2
      show x.length ≤ max x.length (maxLen xs)
      exact le_max_left _ _
    · show x.length ≤ max x0.length (maxLen xs)
      exact le_trans (mem_maxLen xs x h2) (le_max_right _ _)

theorem rawrLoop_stable (M : Model) (mbs : Nat) (ys0 : List Nat)
    (hG : GradLen M) :
    ∀ (L : Nat) (s : RState), Aligned ys0.length s →
      (∀ x ∈ s.xs, x.length ≤ L + 1) →
      ∀ f, L ≤ f →
        (rawrLoop M mbs ys0 f s).finXs = (rawrLoop M mbs ys0 L s).finXs ∧
        (rawrLoop M mbs ys0 f s).finRem = (rawrLoop M mbs ys0 L s).finRem := by
  intro L
  induction L with
  | zero =>
    intro s hal hlen f _
    cases f with
    | zero => exact ⟨rfl, rfl⟩
    | succ f =>
      obtain ⟨ha1, ha2, ha3, ha4⟩ := hal
      obtain ⟨hx0, hi0, hr0, hz0⟩ := removeOneGo_short M mbs hG s.n_beams s.xs
        s.indices s.removed (fun x hx => by simpa using hlen x hx)
      have hr := removeOneGo_lens M mbs s.n_beams s.xs s.indices s.removed
      obtain ⟨g1, g2, g3, g4⟩ := roundGo_zeros M
        (removeOneGo M mbs s.n_beams s.xs s.indices s.removed).nbs ys0
        (removeOneGo M mbs s.n_beams s.xs s.indices s.removed).xs
        (removeOneGo M mbs s.n_beams s.xs s.indices s.removed).inds
        (removeOneGo M mbs s.n_beams s.xs s.indices s.removed).rems
        s.finLen s.finXs s.finRem (by omega) ha2 ha3 ha4 hz0
      have hstep_xs : (rawrStep M mbs ys0 s).xs = [] := g1
      have hstep_fx : (rawrStep M mbs ys0 s).finXs = s.finXs := g3
      have hstep_fr : (rawrStep M mbs ys0 s).finRem = s.finRem := g4
      have hL : rawrLoop M mbs ys0 (f + 1) s = rawrStep M mbs ys0 s := by
        show (if (rawrStep M mbs ys0 s).xs.isEmpty then rawrStep M mbs ys0 s
          else rawrLoop M mbs ys0 f (rawrStep M mbs ys0 s)) = rawrStep M mbs ys0 s
        rw [if_pos (by rw [hstep_xs]; rfl)]
      rw [hL]
      exact ⟨hstep_fx, hstep_fr⟩
  | succ L ih =>
    intro s hal hlen f hf
    cases f with
    | zero => exact absurd hf (by omega)
    | succ f =>
      have hlen2 : ∀ x2 ∈ (rawrStep M mbs ys0 s).xs, x2.length ≤ L + 1 := by
        intro x2 hx2
        have hx2r : x2 ∈ (removeOneGo M mbs s.n_beams s.xs s.indices s.removed).xs :=
          roundGo_xs_subset M _ ys0 _ _ _ s.finLen s.finXs s.finRem x2 hx2
        obtain ⟨x, hx, hplen⟩ := removeOneGo_children M mbs hG s.n_beams s.xs
          s.indices s.removed x2 hx2r
        have := hlen x hx
        omega
      have hal2 := aligned_step M mbs ys0 s hal
      have hL1 : rawrLoop M mbs ys0 (f + 1) s
          = if (rawrStep M mbs ys0 s).xs.isEmpty then rawrStep M mbs ys0 s
            else rawrLoop M mbs ys0 f (rawrStep M mbs ys0 s) := rfl
      have hL2 : rawrLoop M mbs ys0 (L + 1) s
          = if (rawrStep M mbs ys0 s).xs.isEmpty then rawrStep M mbs ys0 s
            else rawrLoop M mbs ys0 L (rawrStep M mbs ys0 s) := rfl
      rw [hL1, hL2]
      by_cases hemp : (rawrStep M mbs ys0 s).xs.isEmpty
      · rw [if_pos hemp, if_pos hemp]
        exact ⟨rfl, rfl⟩
      · rw [if_neg hemp, if_neg hemp]
        exact ih (rawrStep M mbs ys0 s) hal2 hlen2 f (by omega)

/-- Claim C8: the `get_rawr` search loop terminates, needing at most
`maxLen xs - 1` rounds — any fuel of at least `maxLen xs - 1` rounds
yields the same final results as `get_rawr` itself — and each round
replaces every surviving beam's sequence by one exactly one token
shorter than some beam of the previous round (beams reduced to the
lone terminator are pruned inside the round filter while their results
stay recorded). -/
theorem rawr_search_terminates (M : Model) (xs : List (List Int)) (mbs : Nat)
    (hG : GradLen M) :
    (∀ fuel, maxLen xs - 1 ≤ fuel →
      ((rawrLoop M mbs (xs.map M.predict) fuel (initState xs)).finXs,
       (rawrLoop M mbs (xs.map M.predict) fuel (initState xs)).finRem)
        = get_rawr M xs mbs) ∧
    (∀ s : RState, ∀ x2 ∈ (rawrStep M mbs (xs.map M.predict) s).xs,
      ∃ x ∈ s.xs, x2.length + 1 = x.length) := by
  constructor
  · intro fuel hfuel
    have hal : Aligned (xs.map M.predict).length (initState xs) := by
      refine ⟨?_, ?_, ?_, ?_⟩ <;> simp [initState]
    have hlen : ∀ x ∈ (initState xs).xs, x.length ≤ (maxLen xs - 1) + 1 := by
      intro x hx
      have := mem_maxLen xs x hx
      omega
    have h1 := rawrLoop_stable M mbs (xs.map M.predict) hG (maxLen xs - 1)
      (initState xs) hal hlen fuel hfuel
    have h2 := rawrLoop_stable M mbs (xs.map M.predict) hG (maxLen xs - 1)
      (initState xs) hal hlen (maxLen xs) (by omega)
    show _ = ((rawrLoop M mbs (xs.map M.predict) (maxLen xs) (initState xs)).finXs,
      (rawrLoop M mbs (xs.map M.predict) (maxLen xs) (initState xs)).finRem)
    rw [h1.1, h1.2, h2.1, h2.2]
  · intro s x2 hx2
    have hx2r : x2 ∈ (removeOneGo M mbs s.n_beams s.xs s.indices s.removed).xs :=
      roundGo_xs_subset M _ (xs.map M.predict) _ _ _ s.finLen s.finXs s.finRem
        x2 hx2
    exact removeOneGo_children M mbs hG s.n_beams s.xs s.indices s.removed
      x2 hx2r

/-- Witness for C8 on a concrete model and batch. -/
theorem rawr_search_terminates_witness :
    ((rawrLoop sevenModel 2 ([[5, 7, 9]].map sevenModel.predict) 5
        (initState [[5, 7, 9]])).finXs,
     (rawrLoop sevenModel 2 ([[5, 7, 9]].map sevenModel.predict) 5
        (initState [[5, 7, 9]])).finRem) = get_rawr sevenModel [[5, 7, 9]] 2 ∧
    (∀ x2 ∈ (rawrStep sevenModel 2 ([[5, 7, 9]].map sevenModel.predict)
        (initState [[5, 7, 9]])).xs,
      ∃ x ∈ (initState [[5, 7, 9]]).xs, x2.length + 1 = x.length) :=
  ⟨(rawr_search_terminates sevenModel [[5, 7, 9]] 2 (fun _ => rfl)).1 5
      (by decide),
   (rawr_search_terminates sevenModel [[5, 7, 9]] 2 (fun _ => rfl)).2
      (initState [[5, 7, 9]])⟩
